import Mathlib

/-!
Verification of the dependency-graph construction and change-impact
propagation engine of the impact-analysis repository.

The Lean definitions below are a shallow embedding of the Python source:

* `analyzer/vcs_scanner.py`: `discover_microservices`,
  `_parse_openapi_file`, `_discover_service_contracts`,
  `build_service_dependency_graph`.
* `analyzer/graph_builder.py`: `build_knowledge_graph`,
  `impacted_services_from_files`, `enrich_graph_with_metrics`.

File-system access is embedded as an explicit directory tree (`FSTree`),
file contents and other parsing outcomes as explicit parameters, Python
floats as rationals, Python dicts as insertion-ordered association lists,
and Python sets as insertion-ordered duplicate-free lists (the properties
proved below depend on such a set only through membership).  Fallible
computations (guarded by `try`/`except` in the source) are embedded as
`Option`-valued parameters, `none` standing for a raised exception.
-/

namespace ImpactEngine

/-! ## Lexicographic string order (Python `str` comparison, `sorted`) -/

/-- Lexicographic comparison of code-point lists, mirroring Python's
`str` ordering (`s <= t`). -/
def charListLe : List Char → List Char → Bool
  | [], _ => true
  | _ :: _, [] => false
  | a :: as, b :: bs =>
    if a.toNat < b.toNat then true
    else if b.toNat < a.toNat then false
    else charListLe as bs

/-- Python string comparison `s <= t` (lexicographic on code points). -/
def strLe (s t : String) : Bool :=
  charListLe s.toList t.toList

/-- Insert into a sorted list, keeping it sorted. -/
def insertLe {α : Type} (le : α → α → Bool) (x : α) : List α → List α
  | [] => [x]
  | y :: ys => if le x y then x :: y :: ys else y :: insertLe le x ys

/-- `sorted(...)`: a comparison sort (insertion sort here; the inputs
sorted by this development carry no duplicate keys, so any comparison
sort agrees with Python's stable sort). -/
def sortLe {α : Type} (le : α → α → Bool) : List α → List α
  | [] => []
  | x :: xs => insertLe le x (sortLe le xs)

/-! ## Minimal JSON-like values

`json.loads` / `yaml.safe_load` results are embedded as `JVal`; Python
dicts keep their insertion order as association lists. -/

inductive JVal where
  | null : JVal
  | bool (b : Bool) : JVal
  | num (n : Int) : JVal
  | str (s : String) : JVal
  | arr (elems : List JVal) : JVal
  | obj (fields : List (String × JVal)) : JVal
deriving Repr

/-- Python dict `get` with default, on an association list. -/
def jGet (fields : List (String × JVal)) (k : String) (d : JVal) : JVal :=
  (((fields.find? (fun p => p.1 == k)).map (fun p => p.2)).getD d)

/-- Python truthiness of a `JVal` (`if c:`). -/
def JVal.truthy : JVal → Bool
  | .null => false
  | .bool b => b
  | .num n => n != 0
  | .str s => s != ""
  | .arr l => !l.isEmpty
  | .obj l => !l.isEmpty

/-! ## Directory trees

A file node carries the outcome of parsing its text as JSON/YAML
(`none` when neither parser accepts it); only the OpenAPI scanner looks
at contents, all other walks use names alone. -/

mutual
inductive FSTree where
  | file (name : String) (content : Option JVal) : FSTree
  | dir (name : String) (children : FSForest) : FSTree
inductive FSForest where
  | nil : FSForest
  | cons (t : FSTree) (ts : FSForest) : FSForest
end

def FSTree.name : FSTree → String
  | .file n _ => n
  | .dir n _ => n

/-- A directory listing as a plain list of its entries. -/
def FSForest.toList : FSForest → List FSTree
  | .nil => []
  | .cons t ts => t :: ts.toList

/-- `os.path.join` with POSIX separators. -/
def pathJoin (a b : String) : String := a ++ "/" ++ b

/-- Joining a relative directory and a name, the relative directory of a
walk root being `""`. -/
def relJoin (d f : String) : String := if d = "" then f else d ++ "/" ++ f

/-- One walk entry: path relative to the walk root, bare file name, and
the file's parsed content. -/
abbrev WalkEntry := String × String × Option JVal

/-- Files of the given directory listing itself (the `files` component of
one `os.walk` step), not descending into subdirectories. -/
def dirFiles (relDir : String) : FSForest → List WalkEntry
  | .nil => []
  | .cons (.file fn c) ts => (relJoin relDir fn, fn, c) :: dirFiles relDir ts
  | .cons (.dir _ _) ts => dirFiles relDir ts

mutual
/-- Entries below one directory entry: nothing for a plain file, the
full recursive walk of a directory. -/
def walkTree (relDir : String) : FSTree → List WalkEntry
  | .file _ _ => []
  | .dir dn ch =>
    dirFiles (relJoin relDir dn) ch ++ walkSub (relJoin relDir dn) ch

/-- Entries contributed by the subdirectories of a listing: for each
subdirectory in order, its own files first and then its descendants,
exactly the top-down order of `os.walk`. -/
def walkSub (relDir : String) : FSForest → List WalkEntry
  | .nil => []
  | .cons t ts => walkTree relDir t ++ walkSub relDir ts
end

/-- All files below a directory listing in `os.walk` top-down order. -/
def walkEntries (relDir : String) (ts : FSForest) : List WalkEntry :=
  dirFiles relDir ts ++ walkSub relDir ts

/-- A file named `fn` with parsed content `c` exists in the listing
under the chain of directory names `dirs`. -/
inductive HasFile : FSForest → List String → String → Option JVal → Prop where
  | here {ts : FSForest} {fn : String} {c : Option JVal}
      (hmem : FSTree.file fn c ∈ ts.toList) : HasFile ts [] fn c
  | inSub {ts : FSForest} {dn : String} {ch : FSForest}
      {dirs : List String} {fn : String} {c : Option JVal}
      (hmem : FSTree.dir dn ch ∈ ts.toList) (hsub : HasFile ch dirs fn c) :
      HasFile ts (dn :: dirs) fn c

/-- The walk-relative path of a file reached from `rel` through the
directory names `dirs`. -/
def relPathAt (rel : String) (dirs : List String) (fn : String) : String :=
  match dirs with
  | [] => relJoin rel fn
  | d :: ds => relPathAt (relJoin rel d) ds fn

/-! ## `vcs_scanner.discover_microservices` -/

/-- Python `s.endswith(t)` (suffix of code points). -/
def strEndsWith (s t : String) : Bool := decide (t.toList <:+ s.toList)

/-- Python `s.startswith(t)` (leading code points). -/
def strStartsWith (s t : String) : Bool := decide (t.toList <+: s.toList)

/-- Python `s.lower()` (per-character case folding). -/
def strToLower (s : String) : String := String.mk (s.toList.map Char.toLower)

/-- `SOURCE_EXTENSIONS` of `analyzer/vcs_scanner.py`. -/
def SOURCE_EXTENSIONS : List String :=
  [".py", ".ts", ".js", ".json", ".yml", ".yaml", ".html", ".jsx", ".tsx"]

/-- `SERVICE_PREFIXES` of `analyzer/vcs_scanner.py` (renamed here): the
leading name markers that make a top-level directory a service. -/
def SERVICE_NAME_STARTS : List String :=
  ["ui-", "crud-", "domain-", "fdr-", "psg-", "apigee-", "svc-"]

/-- Does the file name end in one of the recognized source extensions
(`f.endswith(SOURCE_EXTENSIONS)`)? -/
def hasSourceExt (fn : String) : Bool :=
  SOURCE_EXTENSIONS.any (fun e => strEndsWith fn e)

/-- Is the directory name recognized as a service
(`any(entry.startswith(p) for p in SERVICE_PREFIXES)`)? -/
def isServiceName (n : String) : Bool :=
  SERVICE_NAME_STARTS.any (fun p => strStartsWith n p)

/-- The service entry contributed by one sorted directory entry of the
base directory, `none` for plain files and unrecognized names. -/
def serviceOfEntry (base_dir : String) (t : FSTree) :
    Option (String × List String) :=
  match t with
  | .file _ _ => none
  | .dir n ch =>
    if isServiceName n then
      some (n, (walkEntries "" ch).filterMap (fun e =>
        if hasSourceExt e.2.1 then
          some (pathJoin (pathJoin base_dir n) e.1)
        else none))
    else none

/-- `discover_microservices(base_dir)`: iterate the base directory's
entries in sorted name order (`sorted(os.listdir(base_dir))`), keep the
directories whose name starts with a recognized service marker, and
collect every file below them whose name has a recognized extension.
The base directory's listing is passed as a forest of trees. -/
def discoverStep (base_dir : String) (acc : List (String × List String))
    (t : FSTree) : List (String × List String) :=
  match serviceOfEntry base_dir t with
  | some sv => acc ++ [sv]
  | none => acc

/-- `discover_microservices(base_dir)` over the sorted entries. -/
def discover_microservices (base_dir : String) (entries : FSForest) :
    List (String × List String) :=
  (sortLe (fun a b => strLe a.name b.name) entries.toList).foldl
    (discoverStep base_dir) []

/-! ## `vcs_scanner._parse_openapi_file` and `_discover_service_contracts` -/

/-- Python substring test `needle in hay`. -/
def strContains (hay needle : String) : Bool :=
  decide (needle.toList <:+: hay.toList)

/-- `_parse_openapi_file`: given the JSON/YAML parse outcome of the
file's text (`none` when both parsers fail or the file is unreadable),
build the minimal contract shape `{"paths": ..., "info": ...}`.  The
result is `none` exactly when the Python function returns the falsy `{}`
(parse failure, or the `.items()` call raising on a truthy non-dict
`paths` value, caught by the enclosing handler). -/
def _parse_openapi_file (content : Option JVal) : Option JVal :=
  match content with
  | none => none
  | some data =>
    match data with
    | .obj fields =>
      let info := jGet fields "info" (.obj [])
      let paths := jGet fields "paths" (.obj [])
      match paths with
      | .obj ps =>
        some (.obj [("paths", .obj (ps.map (fun pm =>
          (pm.1, match pm.2 with
            | .obj ms => JVal.arr (ms.map (fun m => JVal.str m.1))
            | _ => JVal.arr [])))), ("info", info)])
      | other =>
        if other.truthy then none
        else some (.obj [("paths", .obj []), ("info", info)])
    | _ => some (.obj [("paths", .obj []), ("info", .obj [])])

/-- A parsed contracts mapping: contract kind (`"openapi"` / `"proto"`)
to the list of `{path, contract}` records, insertion ordered. -/
abbrev ContractsMap := List (String × List (String × JVal))

/-- `contracts.setdefault(kind, []).append(entry)`. -/
def ctrAdd (m : ContractsMap) (kind : String) (e : String × JVal) :
    ContractsMap :=
  if m.any (fun p => p.1 == kind) then
    m.map (fun p => if p.1 == kind then (p.1, p.2 ++ [e]) else p)
  else m ++ [(kind, [e])]

/-- Does the lowered file name mark an OpenAPI/Swagger descriptor? -/
def isOpenapiName (fnl : String) : Bool :=
  (strEndsWith fnl ".yaml" || strEndsWith fnl ".yml" || strEndsWith fnl ".json")
    && (strContains fnl "openapi" || strContains fnl "swagger")

/-- `_discover_service_contracts(service_root)`: walk the service root,
parse OpenAPI-style descriptors and (through the abstract parameter
`protoP`, `none` for a raised exception) `.proto` files, recording each
parsed contract under its kind with the file's path relative to the
root.  `root_children` is the listing of the service root. -/
def contractStep (protoP : String → Option JVal) (acc : ContractsMap)
    (e : WalkEntry) : ContractsMap :=
  let fnl := strToLower e.2.1
  if isOpenapiName fnl then
    match _parse_openapi_file e.2.2 with
    | some c => ctrAdd acc "openapi" (e.1, c)
    | none => acc
  else if strEndsWith fnl ".proto" then
    match protoP e.1 with
    | some c => ctrAdd acc "proto" (e.1, c)
    | none => acc
  else acc

def _discover_service_contracts (protoP : String → Option JVal)
    (root_children : FSForest) : ContractsMap :=
  (walkEntries "" root_children).foldl (contractStep protoP) []

/-! ## Graph data model (a `networkx.DiGraph` refined to the attributes
this program uses)

Node and edge attribute dicts are embedded as records of optional
fields; `nodes` and `edges` keep insertion order, as `networkx` dicts
do.  `adj[u]` is recovered as the targets of `u`'s edges in insertion
order, which is exactly the successor order `networkx` iterates. -/

structure EdgeAttr where
  weight : Option ℚ
  normalized_weight : Option ℚ
deriving Repr, DecidableEq

structure NodeAttr where
  typ : Option String
  file_count : Option Nat
  contracts : Option ContractsMap
  pagerank : Option ℚ
  centrality : Option ℚ
  betweenness : Option ℚ
  scc_size : Option Int
  downstream_count : Option Nat
deriving Repr

/-- Attribute dict of a fresh node (`{}` before any key is written). -/
def NodeAttr.empty : NodeAttr :=
  ⟨none, none, none, none, none, none, none, none⟩

structure DiGraph where
  nodes : List (String × NodeAttr)
  edges : List (String × String × EdgeAttr)
deriving Repr

def DiGraph.nodeNames (G : DiGraph) : List String :=
  G.nodes.map (fun p => p.1)

/-- `n in G`. -/
def DiGraph.hasNode (G : DiGraph) (n : String) : Bool :=
  G.nodes.any (fun p => p.1 == n)

/-- `G.nodes[n]`: the attribute dict of node `n` (first binding). -/
def nodeFind (G : DiGraph) (n : String) : Option NodeAttr :=
  ((G.nodes.find? (fun p => p.1 == n)).map (fun p => p.2))

/-- Successors of `u` in adjacency (insertion) order. -/
def successors (G : DiGraph) (u : String) : List String :=
  G.edges.filterMap (fun e => if e.1 == u then some e.2.1 else none)

/-- `G.get_edge_data(u, v) or {}`: the attribute dict of the first
recorded `(u, v)` edge, an empty dict when there is none. -/
def get_edge_data (G : DiGraph) (u v : String) : EdgeAttr :=
  (((G.edges.find? (fun e => e.1 == u && e.2.1 == v)).map
    (fun e => e.2.2)).getD ⟨none, none⟩)

/-- Well-formedness every `networkx` graph enjoys by construction:
node names are unique, the endpoints of every edge are nodes, and no
ordered pair of endpoints repeats. -/
def DiGraph.WF (G : DiGraph) : Prop :=
  G.nodeNames.Nodup
    ∧ (∀ e ∈ G.edges, e.1 ∈ G.nodeNames ∧ e.2.1 ∈ G.nodeNames)
    ∧ (G.edges.map (fun e => (e.1, e.2.1))).Nodup

instance (G : DiGraph) : Decidable G.WF := by
  unfold DiGraph.WF; infer_instance

/-! ## `vcs_scanner.build_service_dependency_graph`

The file system and the per-file static analysis are abstract
parameters: `readF` is `read_file_content` (empty string for an
unreadable file), `extract` is `extract_dependencies(content,
filename)`, `identsOf` is the per-service identifier set built by
`_build_service_identifiers` (folder name, its tokens, manifest names),
and `contractsOf` is `_discover_service_contracts` applied to the
service root.  The claims proved below hold for every instantiation of
these parameters. -/

structure SvcEntry where
  files : List String
  deps : List (String × Nat)
  contracts : ContractsMap
deriving Repr

/-- `graph[svc]["deps"].setdefault(target, 0); ... += 1`. -/
def addDep (deps : List (String × Nat)) (t : String) : List (String × Nat) :=
  if deps.any (fun p => p.1 == t) then
    deps.map (fun p => if p.1 == t then (p.1, p.2 + 1) else p)
  else deps ++ [(t, 1)]

/-- The first service (in `id_map` iteration order) other than `svc`
one of whose identifiers occurs in the dependency token `dep`
(`if ident and ident in dep`). -/
def matchTarget (svc dep : String) (idMap : List (String × List String)) :
    Option String :=
  ((idMap.find? (fun ti =>
    ti.1 != svc && ti.2.any (fun i => i != "" && strContains dep i))).map
      (fun ti => ti.1))

/-- Dependency counts of one service: fold its files' dependency tokens
through first-match-wins resolution. -/
def svcDeps (readF : String → String) (extract : String → String → List String)
    (idMap : List (String × List String)) (svc : String)
    (files : List String) : List (String × Nat) :=
  files.foldl (fun acc fp =>
    let content := readF fp
    if content = "" then acc
    else (extract content fp).foldl (fun acc2 dep =>
      match matchTarget svc dep idMap with
      | some t => addDep acc2 t
      | none => acc2) acc) []

/-- `build_service_dependency_graph(services)`. -/
def build_service_dependency_graph (readF : String → String)
    (extract : String → String → List String)
    (identsOf : String → List String → List String)
    (contractsOf : String → ContractsMap)
    (services : List (String × List String)) : List (String × SvcEntry) :=
  let idMap := services.map (fun sf => (sf.1, identsOf sf.1 sf.2))
  services.map (fun sf =>
    (sf.1, { files := sf.2
             deps := svcDeps readF extract idMap sf.1 sf.2
             contracts := contractsOf sf.1 }))

/-! ## `graph_builder.enrich_graph_with_metrics`

The five `networkx` metric computations are abstract parameters, each a
function of the graph's structural core (node names, edges, weights)
returning `none` when the underlying algorithm raises; the enrichment
pass itself is total, mirroring its per-metric `try`/`except` blocks. -/

/-- The structural core of a graph: everything the `networkx` metric
algorithms read (node set, edge set, edge weights). -/
def core (G : DiGraph) : List String × List (String × String × Option ℚ) :=
  (G.nodeNames, G.edges.map (fun e => (e.1, e.2.1, e.2.2.weight)))

abbrev GraphCore := List String × List (String × String × Option ℚ)

/-- The abstract metric computations: `nx.pagerank`,
`nx.degree_centrality`, `nx.betweenness_centrality`, the node-to-SCC-size
map derived from `nx.strongly_connected_components`, and the per-node
`len(nx.descendants(G, n))`. -/
structure MetricComps where
  prC : GraphCore → Option (List (String × ℚ))
  degC : GraphCore → Option (List (String × ℚ))
  btwC : GraphCore → Option (List (String × ℚ))
  sccC : GraphCore → Option (List (String × Int))
  descC : GraphCore → String → Option Nat

/-- `d.get(n, default)` over an association list. -/
def lookupD {α : Type} (l : List (String × α)) (k : String) (d : α) : α :=
  (((l.find? (fun p => p.1 == k)).map (fun p => p.2)).getD d)

/-- `a.get("weight", 1)`. -/
def weightD (a : EdgeAttr) : ℚ := a.weight.getD 1

/-- `max_w` of the normalization pass: largest default-completed weight
seen, starting from `0.0`. -/
def maxWeight (G : DiGraph) : ℚ :=
  G.edges.foldl (fun m e => if m < weightD e.2.2 then weightD e.2.2 else m) 0

/-- `enrich_graph_with_metrics(G)`: annotate every node with the five
metrics (neutral defaults when a computation failed or a node is missing
from its result) and, when some weight is positive, every edge with
`weight / max_w`. -/
def enrich_graph_with_metrics (M : MetricComps) (G : DiGraph) : DiGraph :=
  if G.nodes.isEmpty then G
  else
    let pr := (M.prC (core G)).getD []
    let deg := (M.degC (core G)).getD []
    let btw := (M.btwC (core G)).getD []
    let scc := (M.sccC (core G)).getD []
    let nodes' := G.nodes.map (fun p =>
      (p.1, { p.2 with
        pagerank := some (lookupD pr p.1 0)
        centrality := some (lookupD deg p.1 0)
        betweenness := some (lookupD btw p.1 0)
        scc_size := some (lookupD scc p.1 1)
        downstream_count := some ((M.descC (core G) p.1).getD 0) }))
    let mw := maxWeight G
    let edges' :=
      if 0 < mw then
        G.edges.map (fun e =>
          (e.1, e.2.1, { e.2.2 with
            normalized_weight := some (weightD e.2.2 / mw) }))
      else G.edges
    ⟨nodes', edges'⟩

/-! ## `graph_builder.build_knowledge_graph` -/

/-- Node attributes of a service node: `type`, `file_count`, and the
contracts when the discovered mapping is truthy. -/
def svcNodeAttr (e : SvcEntry) : NodeAttr :=
  { NodeAttr.empty with
    typ := some "service"
    file_count := some e.files.length
    contracts := if e.contracts.isEmpty then none else some e.contracts }

/-- Node attributes of a dependency-only node
(`type="service", file_count=0`). -/
def depNodeAttr : NodeAttr :=
  { NodeAttr.empty with typ := some "service", file_count := some 0 }

/-- `G.add_node(n, **attr)` for a node known to be absent (the builder
guards every add with `if n not in G`). -/
def addNodeIfAbsent (G : DiGraph) (n : String) (a : NodeAttr) : DiGraph :=
  if G.hasNode n then G else ⟨G.nodes ++ [(n, a)], G.edges⟩

/-- `G.add_edge(u, v, weight=c)`: update the attribute dict when the
edge exists, append it otherwise (both endpoints already being nodes on
every call site). -/
def addEdgeW (G : DiGraph) (u v : String) (c : Nat) : DiGraph :=
  if G.edges.any (fun e => e.1 == u && e.2.1 == v) then
    ⟨G.nodes, G.edges.map (fun e =>
      if e.1 == u && e.2.1 == v then (e.1, e.2.1, { e.2.2 with weight := some (c : ℚ) })
      else e)⟩
  else ⟨G.nodes, G.edges ++ [(u, v, ⟨some (c : ℚ), none⟩)]⟩

/-- One iteration of the builder's dependency loop: ensure the target
node exists (`file_count=0` when new) and record the weighted edge. -/
def kgDepStep (svc : String) (Gi : DiGraph) (dc : String × Nat) : DiGraph :=
  addEdgeW (addNodeIfAbsent Gi dc.1 depNodeAttr) svc dc.1 dc.2

/-- One iteration of the builder's outer loop: add the service node,
then each of its dependencies as node (if new) and weighted edge. -/
def kgStep (G : DiGraph) (p : String × SvcEntry) : DiGraph :=
  p.2.deps.foldl (kgDepStep p.1) (addNodeIfAbsent G p.1 (svcNodeAttr p.2))

/-- The structural part of `build_knowledge_graph(service_graph)`. -/
def kgBuild (sg : List (String × SvcEntry)) : DiGraph :=
  sg.foldl kgStep ⟨[], []⟩

/-- `build_knowledge_graph(service_graph)`: build the directed graph and
enrich it in place (the enrichment call is wrapped in a broad
`try`/`except`, and is total here). -/
def build_knowledge_graph (M : MetricComps) (sg : List (String × SvcEntry)) :
    DiGraph :=
  enrich_graph_with_metrics M (kgBuild sg)

/-! ## `graph_builder.impacted_services_from_files` -/

/-- Add to a Python set, embedded as a duplicate-free list in insertion
order (the properties proved below use it only through membership). -/
def insertNew (l : List String) (x : String) : List String :=
  if x ∈ l then l else l ++ [x]

/-- New elements of `nbrs` relative to the undiscovered pool `fresh`:
the discovered ones in order, and the pool they leave behind. -/
def takeNews : List String → List String → List String × List String
  | [], fresh => ([], fresh)
  | v :: vs, fresh =>
    if v ∈ fresh then
      let r := takeNews vs (fresh.erase v)
      (v :: r.1, r.2)
    else takeNews vs fresh

/-- Queue-based breadth-first traversal yielding tree edges in discovery
order, exactly `networkx`'s `generic_bfs_edges`: pop the head, yield an
edge to each not-yet-discovered successor, enqueue them.  The fuel is an
artifact of the embedding: each round shrinks `queue.length +
fresh.length` by exactly one, so the initial fuel below never runs out. -/
def bfsAux (G : DiGraph) : Nat → List String → List String →
    List (String × String)
  | 0, _, _ => []
  | _ + 1, [], _ => []
  | fuel + 1, u :: q, fresh =>
    let tn := takeNews (successors G u) fresh
    tn.1.map (fun v => (u, v)) ++ bfsAux G fuel (q ++ tn.1) tn.2

/-- `nx.bfs_edges(G, s)`: breadth-first tree edges from `s`, every node
other than `s` still undiscovered. -/
def bfs_edges (G : DiGraph) (s : String) : List (String × String) :=
  bfsAux G (1 + (G.nodeNames.erase s).length) [s] (G.nodeNames.erase s)

/-- The origin set resolved from the changed files: `resolve` stands for
the per-file resolution (`map_file_to_service` followed by the older
path heuristics), returning `none` when the file maps to no service. -/
def resolveOrigins (resolve : String → Option String)
    (changed_files : List String) : List String :=
  changed_files.foldl (fun acc cf =>
    match resolve cf with
    | some s => insertNew acc s
    | none => acc) []

/-- The starting services including the conservative fallback: when
nothing resolved and at least one service exists, the first discovered
service (`list(services.keys())[0]`). -/
def startList (resolve : String → Option String)
    (changed_files : List String) (services : List (String × List String)) :
    List String :=
  let s0 := resolveOrigins resolve changed_files
  if s0.isEmpty then
    match services with
    | [] => []
    | sf :: _ => [sf.1]
  else s0

/-- An entry of the returned edge list:
`{"from": u, "to": v, "attr": G.get_edge_data(u, v) or {}}`. -/
structure EdgeRec where
  src : String
  tgt : String
  attr : EdgeAttr
deriving Repr, DecidableEq

/-- The edge records contributed by one origin: its breadth-first tree
edges with their attribute dicts, in discovery order. -/
def originEdgeRecs (G : DiGraph) (s : String) : List EdgeRec :=
  (bfs_edges G s).map (fun uv => ⟨uv.1, uv.2, get_edge_data G uv.1 uv.2⟩)

/-- The body of the propagation loop `for s in start_services:`: skip an
origin absent from the graph, otherwise add it and every breadth-first
discovered node to the impacted set and append the traversed edges. -/
def impactedStep (G : DiGraph) (acc : List String × List EdgeRec)
    (s : String) : List String × List EdgeRec :=
  if G.hasNode s then
    ((bfs_edges G s).foldl (fun imp uv => insertNew imp uv.2)
      (insertNew acc.1 s),
     acc.2 ++ originEdgeRecs G s)
  else acc

/-- `impacted_services_from_files(changed_files, services, G)`: resolve
origins (with fallback), breadth-first traverse from each origin present
in the graph, and return the sorted impacted services with the traversed
edges in discovery order. -/
def impacted_services_from_files (resolve : String → Option String)
    (changed_files : List String) (services : List (String × List String))
    (G : DiGraph) : List String × List EdgeRec :=
  let starts := startList resolve changed_files services
  let acc := starts.foldl (impactedStep G) ([], [])
  (sortLe strLe acc.1, acc.2)

/-- Forward reachability along directed edges (zero or more steps). -/
def Reaches (G : DiGraph) (s v : String) : Prop :=
  Relation.ReflTransGen (fun a b => b ∈ successors G a) s v

/-- Reachability restricted to steps landing in the pool `fresh`. -/
def stepF (G : DiGraph) (fresh : List String) (a b : String) : Prop :=
  b ∈ successors G a ∧ b ∈ fresh

/-- The specification of `impacted_services_from_files` against which
claim C1 is settled: the impacted list holds exactly the nodes of `G`
reachable from some resolved origin that is a node of `G` (origins
themselves included), it is sorted lexicographically, the edge list is
the per-origin concatenation of the breadth-first discovery-order edge
records (origins absent from the graph contributing nothing, repeats
across origins kept), and every record carries a real edge of `G` with
its attribute dict. -/
def ImpactedSpec (resolve : String → Option String)
    (changed_files : List String) (services : List (String × List String))
    (G : DiGraph) : Prop :=
  (∀ v, v ∈ (impacted_services_from_files resolve changed_files services G).1
      ↔ ∃ s ∈ startList resolve changed_files services,
          s ∈ G.nodeNames ∧ Reaches G s v)
    ∧ (impacted_services_from_files resolve changed_files services G).1.Pairwise
        (fun a b => strLe a b = true)
    ∧ (impacted_services_from_files resolve changed_files services G).2
        = (startList resolve changed_files services).flatMap (fun s =>
            if G.hasNode s then originEdgeRecs G s else [])
    ∧ (∀ er ∈ (impacted_services_from_files resolve changed_files services G).2,
        (er.src, er.tgt, er.attr) ∈ G.edges)

/-! ## Concrete instances used to witness the theorems below -/

/-- The spec's scenario graph: edges `A -> B` (weight 2) and `B -> C`
(weight 1). -/
def Gw : DiGraph :=
  ⟨[("A", NodeAttr.empty), ("B", NodeAttr.empty), ("C", NodeAttr.empty)],
   [("A", "B", ⟨some 2, none⟩), ("B", "C", ⟨some 1, none⟩)]⟩

/-- A resolver mapping the changed file `fileA` to service `A` and
nothing else. -/
def resolveW : String → Option String :=
  fun cf => if cf = "fileA" then some "A" else none

/-- A resolver that never maps a changed file to a service. -/
def resolveNone : String → Option String := fun _ => none

/-- Metric computations that all raise. -/
def noMetrics : MetricComps :=
  ⟨fun _ => none, fun _ => none, fun _ => none, fun _ => none,
   fun _ _ => none⟩

/-- A two-service mapping whose only dependency token makes `svc-a`
depend on `svc-b`. -/
def servicesW : List (String × List String) :=
  [("svc-a", ["fa"]), ("svc-b", [])]

/-- File contents for `servicesW`: the single file of `svc-a` mentions
`svc-b`. -/
def readFW : String → String := fun fp => if fp = "fa" then "svc-b" else ""

/-- Dependency extraction that returns the whole content as one token. -/
def extractW : String → String → List String := fun c _ => [c]

/-- Identifier sets consisting of just the service's own name. -/
def identsW : String → List String → List String := fun s _ => [s]

/-- Contract discovery finding nothing. -/
def contractsNone : String → ContractsMap := fun _ => []

/-- A base listing with one service directory holding a source file
inside a hidden `.git` subdirectory. -/
def forestW : FSForest :=
  .cons (FSTree.dir "svc-a" (.cons (FSTree.dir ".git"
    (.cons (FSTree.file "app.py" none) .nil)) .nil)) .nil

/-- A proto parser that always raises. -/
def protoNone : String → Option JVal := fun _ => none

/-- A service root holding a single OpenAPI-style descriptor (name
`fn`) declaring the one path `/items` with a `get` method. -/
def oaForest (fn : String) (v : JVal) : FSForest :=
  .cons (FSTree.file fn
    (some (.obj [("paths", .obj [("/items", .obj [("get", v)])])]))) .nil

/-- The contract summary the code actually builds for `oaForest`:
the method list under `/items` plus the (empty) declared metadata. -/
def oaContract : JVal :=
  .obj [("paths", .obj [("/items", .arr [.str "get"])]), ("info", .obj [])]

/-! ## Lemmas: the lexicographic order -/

theorem charListLe_refl (l : List Char) : charListLe l l = true := by
  induction l with
  | nil => rfl
  | cons a as ih => simp [charListLe, ih]

theorem charListLe_total (l m : List Char) :
    charListLe l m = true ∨ charListLe m l = true := by
  induction l generalizing m with
  | nil => exact Or.inl rfl
  | cons a as ih =>
    cases m with
    | nil => exact Or.inr rfl
    | cons b bs =>
      by_cases hab : a.toNat < b.toNat
      · exact Or.inl (by simp [charListLe, hab])
      · by_cases hba : b.toNat < a.toNat
        · exact Or.inr (by simp [charListLe, hba])
        · rcases ih bs with h | h
          · exact Or.inl (by simp [charListLe, hab, hba, h])
          · exact Or.inr (by simp [charListLe, hab, hba, h])

theorem charListLe_trans {l m n : List Char} (h1 : charListLe l m = true)
    (h2 : charListLe m n = true) : charListLe l n = true := by
  induction l generalizing m n with
  | nil => rfl
  | cons a as ih =>
    cases m with
    | nil => simp [charListLe] at h1
    | cons b bs =>
      cases n with
      | nil => simp [charListLe] at h2
      | cons c cs =>
        simp only [charListLe] at h1 h2 ⊢
        by_cases hab : a.toNat < b.toNat
        · by_cases hbc : b.toNat < c.toNat
          · simp [show a.toNat < c.toNat from Nat.lt_trans hab hbc]
          · by_cases hcb : c.toNat < b.toNat
            · simp [hbc, hcb] at h2
            · have hbc' : b.toNat = c.toNat := Nat.le_antisymm
                (Nat.le_of_not_lt hcb) (Nat.le_of_not_lt hbc)
              simp [hbc' ▸ hab]
        · by_cases hba : b.toNat < a.toNat
          · simp [hab, hba] at h1
          · have hab' : a.toNat = b.toNat := Nat.le_antisymm
              (Nat.le_of_not_lt hba) (Nat.le_of_not_lt hab)
            simp only [hab, hba, if_false, if_true] at h1
            by_cases hbc : b.toNat < c.toNat
            · simp [hab' ▸ hbc]
            · by_cases hcb : c.toNat < b.toNat
              · simp [hbc, hcb] at h2
              · simp only [hbc, hcb, if_false] at h2
                simp [hab' ▸ hbc, hab' ▸ hcb, ih h1 h2]

theorem charListLe_antisymm {l m : List Char} (h1 : charListLe l m = true)
    (h2 : charListLe m l = true) : l = m := by
  induction l generalizing m with
  | nil =>
    cases m with
    | nil => rfl
    | cons b bs => simp [charListLe] at h2
  | cons a as ih =>
    cases m with
    | nil => simp [charListLe] at h1
    | cons b bs =>
      simp only [charListLe] at h1 h2
      by_cases hab : a.toNat < b.toNat
      · simp [show ¬ b.toNat < a.toNat from Nat.lt_asymm hab, hab] at h2
      · by_cases hba : b.toNat < a.toNat
        · simp [hab, hba] at h1
        · have hab' : a.toNat = b.toNat := Nat.le_antisymm
            (Nat.le_of_not_lt hba) (Nat.le_of_not_lt hab)
          have : a = b := by
            apply Char.eq_of_val_eq
            exact UInt32.toNat.inj hab'
          simp only [hab, hba, if_false] at h1 h2
          exact this ▸ congrArg (a :: ·) (ih h1 h2)

theorem strLe_refl (s : String) : strLe s s = true := charListLe_refl _

theorem strLe_total (s t : String) : strLe s t = true ∨ strLe t s = true :=
  charListLe_total _ _

theorem strLe_trans {s t u : String} (h1 : strLe s t = true)
    (h2 : strLe t u = true) : strLe s u = true :=
  charListLe_trans h1 h2

theorem strLe_antisymm {s t : String} (h1 : strLe s t = true)
    (h2 : strLe t s = true) : s = t :=
  String.ext (charListLe_antisymm h1 h2)

theorem insertLe_perm {α : Type} (le : α → α → Bool) (x : α) (l : List α) :
    (insertLe le x l).Perm (x :: l) := by
  induction l with
  | nil => exact List.Perm.refl _
  | cons y ys ih =>
    unfold insertLe
    by_cases h : le x y
    · rw [if_pos h]
    · rw [if_neg h]
      exact (ih.cons y).trans (List.Perm.swap x y ys)

theorem sortLe_perm {α : Type} (le : α → α → Bool) (l : List α) :
    (sortLe le l).Perm l := by
  induction l with
  | nil => exact List.Perm.refl _
  | cons x xs ih => exact (insertLe_perm le x (sortLe le xs)).trans (ih.cons x)

theorem sortLe_mem {α : Type} {le : α → α → Bool} {a : α} {l : List α} :
    a ∈ sortLe le l ↔ a ∈ l :=
  (sortLe_perm le l).mem_iff

theorem insertLe_sorted {α : Type} {le : α → α → Bool}
    (htrans : ∀ a b c, le a b = true → le b c = true → le a c = true)
    (htot : ∀ a b, (le a b || le b a) = true) (x : α) {l : List α}
    (hs : l.Pairwise (fun a b => le a b = true)) :
    (insertLe le x l).Pairwise (fun a b => le a b = true) := by
  induction l with
  | nil => simp [insertLe]
  | cons y ys ih =>
    rcases List.pairwise_cons.mp hs with ⟨hy, hys⟩
    unfold insertLe
    by_cases h : le x y = true
    · rw [if_pos h]
      refine List.pairwise_cons.mpr ⟨?_, hs⟩
      intro z hz
      rcases List.mem_cons.mp hz with rfl | hz
      · exact h
      · exact htrans x y z h (hy z hz)
    · rw [if_neg h]
      refine List.pairwise_cons.mpr ⟨?_, ih hys⟩
      intro z hz
      rcases (insertLe_perm le x ys).mem_iff.mp hz with hz'
      rcases List.mem_cons.mp hz' with rfl | hz''
      · rcases Bool.or_eq_true_iff.mp (htot z y) with h1 | h1
        · exact absurd h1 h
        · exact h1
      · exact hy z hz''

theorem sortLe_sorted {α : Type} {le : α → α → Bool}
    (htrans : ∀ a b c, le a b = true → le b c = true → le a c = true)
    (htot : ∀ a b, (le a b || le b a) = true) (l : List α) :
    (sortLe le l).Pairwise (fun a b => le a b = true) := by
  induction l with
  | nil => simp [sortLe]
  | cons x xs ih => exact insertLe_sorted htrans htot x ih

/-! ## Lemmas: breadth-first traversal computes forward reachability -/

theorem mem_successors {G : DiGraph} {u v : String} :
    v ∈ successors G u ↔ ∃ a, (u, v, a) ∈ G.edges := by
  constructor
  · intro h
    rcases List.mem_filterMap.mp h with ⟨e, he, hev⟩
    obtain ⟨e1, e2, e3⟩ := e
    by_cases h1 : e1 = u
    · subst h1
      simp only [beq_self_eq_true, if_true, Option.some.injEq] at hev
      subst hev
      exact ⟨e3, he⟩
    · simp [h1] at hev
  · rintro ⟨a, ha⟩
    exact List.mem_filterMap.mpr ⟨(u, v, a), ha, by simp⟩

theorem takeNews_fst_mem {l fresh : List String} (hnd : fresh.Nodup)
    {v : String} : v ∈ (takeNews l fresh).1 ↔ v ∈ l ∧ v ∈ fresh := by
  induction l generalizing fresh with
  | nil => simp [takeNews]
  | cons w ws ih =>
    by_cases hw : w ∈ fresh
    · have hun : (takeNews (w :: ws) fresh).1
          = w :: (takeNews ws (fresh.erase w)).1 := by
        simp [takeNews, hw]
      rw [hun, List.mem_cons, ih (hnd.erase w), List.mem_cons]
      constructor
      · rintro (rfl | ⟨hvs, hve⟩)
        · exact ⟨Or.inl rfl, hw⟩
        · exact ⟨Or.inr hvs, List.mem_of_mem_erase hve⟩
      · rintro ⟨rfl | hvs, hvf⟩
        · exact Or.inl rfl
        · by_cases hvw : v = w
          · exact Or.inl hvw
          · exact Or.inr ⟨hvs, (List.mem_erase_of_ne hvw).mpr hvf⟩
    · have hun : (takeNews (w :: ws) fresh).1 = (takeNews ws fresh).1 := by
        simp [takeNews, hw]
      rw [hun, ih hnd, List.mem_cons]
      constructor
      · rintro ⟨hvs, hvf⟩
        exact ⟨Or.inr hvs, hvf⟩
      · rintro ⟨rfl | hvs, hvf⟩
        · exact absurd hvf hw
        · exact ⟨hvs, hvf⟩

theorem takeNews_snd_mem {l fresh : List String} (hnd : fresh.Nodup)
    {v : String} : v ∈ (takeNews l fresh).2 ↔
      v ∈ fresh ∧ v ∉ (takeNews l fresh).1 := by
  induction l generalizing fresh with
  | nil => simp [takeNews]
  | cons w ws ih =>
    by_cases hw : w ∈ fresh
    · have hun2 : (takeNews (w :: ws) fresh).2
          = (takeNews ws (fresh.erase w)).2 := by
        simp [takeNews, hw]
      have hun1 : (takeNews (w :: ws) fresh).1
          = w :: (takeNews ws (fresh.erase w)).1 := by
        simp [takeNews, hw]
      rw [hun2, hun1, ih (hnd.erase w), List.mem_cons]
      constructor
      · rintro ⟨hve, hnm⟩
        refine ⟨List.mem_of_mem_erase hve, ?_⟩
        rintro (rfl | hvm)
        · exact (hnd.not_mem_erase) hve
        · exact hnm hvm
      · rintro ⟨hvf, hnm⟩
        have hvw : v ≠ w := fun h => hnm (Or.inl h)
        exact ⟨(List.mem_erase_of_ne hvw).mpr hvf, fun h => hnm (Or.inr h)⟩
    · have hun2 : (takeNews (w :: ws) fresh).2 = (takeNews ws fresh).2 := by
        simp [takeNews, hw]
      have hun1 : (takeNews (w :: ws) fresh).1 = (takeNews ws fresh).1 := by
        simp [takeNews, hw]
      rw [hun2, hun1, ih hnd]

theorem takeNews_len (l : List String) (fresh : List String) :
    (takeNews l fresh).1.length + (takeNews l fresh).2.length
      = fresh.length := by
  induction l generalizing fresh with
  | nil => simp [takeNews]
  | cons w ws ih =>
    by_cases hw : w ∈ fresh
    · have h1 : (takeNews (w :: ws) fresh).1
          = w :: (takeNews ws (fresh.erase w)).1 := by simp [takeNews, hw]
      have h2 : (takeNews (w :: ws) fresh).2
          = (takeNews ws (fresh.erase w)).2 := by simp [takeNews, hw]
      rw [h1, h2]
      have := ih (fresh.erase w)
      have hlen : (fresh.erase w).length = fresh.length - 1 :=
        List.length_erase_of_mem hw
      have hpos : 1 ≤ fresh.length := List.length_pos.mpr
        (fun h => by simp [h] at hw)
      simp only [List.length_cons]
      omega
    · have h1 : (takeNews (w :: ws) fresh).1 = (takeNews ws fresh).1 := by
        simp [takeNews, hw]
      have h2 : (takeNews (w :: ws) fresh).2 = (takeNews ws fresh).2 := by
        simp [takeNews, hw]
      rw [h1, h2, ih]

theorem takeNews_snd_nodup (l : List String) {fresh : List String}
    (hnd : fresh.Nodup) : (takeNews l fresh).2.Nodup := by
  induction l generalizing fresh with
  | nil => exact hnd
  | cons w ws ih =>
    by_cases hw : w ∈ fresh
    · have h2 : (takeNews (w :: ws) fresh).2
          = (takeNews ws (fresh.erase w)).2 := by simp [takeNews, hw]
      rw [h2]; exact ih (hnd.erase w)
    · have h2 : (takeNews (w :: ws) fresh).2 = (takeNews ws fresh).2 := by
        simp [takeNews, hw]
      rw [h2]; exact ih hnd

theorem rtg_stepF_target {G : DiGraph} {fresh : List String} {a b : String}
    (h : Relation.ReflTransGen (stepF G fresh) a b) : b = a ∨ b ∈ fresh := by
  induction h with
  | refl => exact Or.inl rfl
  | tail _ hstep _ => exact Or.inr hstep.2

theorem rtg_stepF_mono {G : DiGraph} {fresh fresh' : List String}
    (hsub : ∀ x ∈ fresh', x ∈ fresh) {a b : String}
    (h : Relation.ReflTransGen (stepF G fresh') a b) :
    Relation.ReflTransGen (stepF G fresh) a b :=
  h.mono (fun _ _ hab => ⟨hab.1, hsub _ hab.2⟩)

/-- Transfer of reachability across one breadth-first round: a path from
the current queue that stays inside the pool either stops at a child
just discovered from the head, or can be replayed from the new queue
inside the shrunken pool. -/
theorem bfs_transfer {G : DiGraph} {u : String} {q' news fresh fresh' : List String}
    (hnews : ∀ w, w ∈ news ↔ w ∈ successors G u ∧ w ∈ fresh)
    (hfresh : ∀ w, w ∈ fresh' ↔ w ∈ fresh ∧ w ∉ news)
    (hdisj : ∀ x ∈ fresh, x ∉ u :: q')
    {u0 v : String} (hpath : Relation.ReflTransGen (stepF G fresh) u0 v)
    (hu0 : u0 ∈ u :: q') (hv : v ∈ fresh) :
    v ∈ news ∨ (v ∈ fresh' ∧ ∃ u' ∈ q' ++ news,
      Relation.ReflTransGen (stepF G fresh') u' v) := by
  revert hv
  induction hpath with
  | refl =>
    intro hv
    exact absurd hu0 (hdisj _ hv)
  | @tail w v hp hstep ih =>
    intro hv
    by_cases hvn : v ∈ news
    · exact Or.inl hvn
    · have hvf' : v ∈ fresh' := (hfresh v).mpr ⟨hv, hvn⟩
      refine Or.inr ⟨hvf', ?_⟩
      by_cases hwf : w ∈ fresh
      · rcases ih hwf with hwn | ⟨hwf', u', hu', hp'⟩
        · exact ⟨w, List.mem_append_right _ hwn,
            Relation.ReflTransGen.single ⟨hstep.1, hvf'⟩⟩
        · exact ⟨u', hu', hp'.tail ⟨hstep.1, hvf'⟩⟩
      · have hwu0 : w = u0 := (rtg_stepF_target hp).resolve_right hwf
        subst hwu0
        rcases List.mem_cons.mp hu0 with rfl | hq'
        · exact absurd ((hnews v).mpr ⟨hstep.1, hv⟩) hvn
        · exact ⟨w, List.mem_append_left _ hq',
            Relation.ReflTransGen.single ⟨hstep.1, hvf'⟩⟩

/-- Correctness of the breadth-first loop: a node appears as the target
of a yielded edge exactly when it is still undiscovered and reachable
from the queue by steps that land in the undiscovered pool. -/
theorem bfsAux_mem {G : DiGraph} :
    ∀ (fuel : Nat) (q fresh : List String),
      q.length + fresh.length ≤ fuel → fresh.Nodup →
      (∀ x ∈ fresh, x ∉ q) → ∀ v : String,
      ((∃ u, (u, v) ∈ bfsAux G fuel q fresh) ↔
        v ∈ fresh ∧ ∃ u0 ∈ q, Relation.ReflTransGen (stepF G fresh) u0 v) := by
  intro fuel
  induction fuel with
  | zero =>
    intro q fresh hlen _ _ v
    have hq : q = [] := List.length_eq_zero.mp (by omega)
    subst hq
    simp [bfsAux]
  | succ fuel ih =>
    intro q fresh hlen hnd hdisj v
    match q with
    | [] => simp [bfsAux]
    | u :: q' =>
      have hnews := fun w => takeNews_fst_mem (l := successors G u) hnd (v := w)
      have hfresh := fun w => takeNews_snd_mem (l := successors G u) hnd (v := w)
      have hlen2 := takeNews_len (successors G u) fresh
      set news := (takeNews (successors G u) fresh).1 with hnewsdef
      set fresh' := (takeNews (successors G u) fresh).2 with hfreshdef
      have hrec := ih (q' ++ news) fresh'
        (by
          simp only [List.length_append]
          simp only [List.length_cons] at hlen
          omega)
        (takeNews_snd_nodup _ hnd)
        (by
          intro x hx
          rcases (hfresh x).mp hx with ⟨hxf, hxn⟩
          intro hmem
          rcases List.mem_append.mp hmem with h | h
          · exact hdisj x hxf (List.mem_cons_of_mem _ h)
          · exact hxn h)
      have hunf : bfsAux G (fuel + 1) (u :: q') fresh
          = news.map (fun w => (u, w)) ++ bfsAux G fuel (q' ++ news) fresh' := by
        simp [bfsAux]
      constructor
      · rintro ⟨u1, hu1⟩
        rw [hunf] at hu1
        rcases List.mem_append.mp hu1 with h | h
        · rcases List.mem_map.mp h with ⟨w, hw, hww⟩
          injection hww with h1 h2
          subst h1; subst h2
          rcases (hnews _).mp hw with ⟨hsucc, hvf⟩
          exact ⟨hvf, u, List.mem_cons_self _ _,
            Relation.ReflTransGen.single ⟨hsucc, hvf⟩⟩
        · have := (hrec v).mp ⟨u1, h⟩
          rcases this with ⟨hvf', u0, hu0, hp⟩
          have hvf : v ∈ fresh := ((hfresh v).mp hvf').1
          refine ⟨hvf, ?_⟩
          have hsub : ∀ x ∈ fresh', x ∈ fresh := fun x hx =>
            ((hfresh x).mp hx).1
          rcases List.mem_append.mp hu0 with h0 | h0
          · exact ⟨u0, List.mem_cons_of_mem _ h0, rtg_stepF_mono hsub hp⟩
          · rcases (hnews u0).mp h0 with ⟨hsucc, hu0f⟩
            exact ⟨u, List.mem_cons_self _ _,
              Relation.ReflTransGen.head ⟨hsucc, hu0f⟩ (rtg_stepF_mono hsub hp)⟩
      · rintro ⟨hvf, u0, hu0, hp⟩
        rcases bfs_transfer hnews hfresh hdisj hp hu0 hvf with h | ⟨hvf', u', hu', hp'⟩
        · exact ⟨u, by
            rw [hunf]
            exact List.mem_append_left _ (List.mem_map.mpr ⟨v, h, rfl⟩)⟩
        · rcases (hrec v).mpr ⟨hvf', u', hu', hp'⟩ with ⟨u1, hu1⟩
          exact ⟨u1, by rw [hunf]; exact List.mem_append_right _ hu1⟩

theorem bfs_edges_mem {G : DiGraph} (hnd : G.nodeNames.Nodup)
    {s v : String} :
    (∃ u, (u, v) ∈ bfs_edges G s) ↔
      v ∈ G.nodeNames.erase s
        ∧ Relation.ReflTransGen (stepF G (G.nodeNames.erase s)) s v := by
  have h := bfsAux_mem (G := G) (1 + (G.nodeNames.erase s).length) [s]
    (G.nodeNames.erase s) (by simp) (hnd.erase s)
    (by
      intro x hx hmem
      rcases List.mem_cons.mp hmem with rfl | h
      · exact hnd.not_mem_erase hx
      · simp at h) v
  rw [bfs_edges, h]
  constructor
  · rintro ⟨hvf, u0, hu0, hp⟩
    rcases List.mem_cons.mp hu0 with rfl | h
    · exact ⟨hvf, hp⟩
    · simp at h
  · rintro ⟨hvf, hp⟩
    exact ⟨hvf, s, List.mem_cons_self _ _, hp⟩

/-- Breadth-first traversal from `s` discovers exactly the nodes
forward-reachable from `s` (other than `s` itself). -/
theorem reaches_iff_bfs {G : DiGraph} (hnd : G.nodeNames.Nodup)
    (hends : ∀ e ∈ G.edges, e.2.1 ∈ G.nodeNames) {s v : String} :
    Reaches G s v ↔ (v = s ∨ ∃ u, (u, v) ∈ bfs_edges G s) := by
  rw [bfs_edges_mem hnd]
  constructor
  · intro h
    have h' : Relation.ReflTransGen (fun a b => b ∈ successors G a) s v := h
    induction h' with
    | refl => exact Or.inl rfl
    | @tail w v hp hstep ih =>
      by_cases hvs : v = s
      · exact Or.inl hvs
      · have hvn : v ∈ G.nodeNames := by
          rcases mem_successors.mp hstep with ⟨a, ha⟩
          exact hends _ ha
        have hvf : v ∈ G.nodeNames.erase s :=
          (List.mem_erase_of_ne hvs).mpr hvn
        refine Or.inr ⟨hvf, ?_⟩
        rcases ih hp with rfl | ⟨hwf, hpw⟩
        · exact Relation.ReflTransGen.single ⟨hstep, hvf⟩
        · exact hpw.tail ⟨hstep, hvf⟩
  · rintro (rfl | ⟨hvf, hp⟩)
    · exact Relation.ReflTransGen.refl
    · exact hp.mono (fun a b hab => hab.1)

theorem takeNews_fst_sub {l fresh : List String} {v : String}
    (h : v ∈ (takeNews l fresh).1) : v ∈ l := by
  induction l generalizing fresh with
  | nil => simp [takeNews] at h
  | cons w ws ih =>
    by_cases hw : w ∈ fresh
    · have hun : (takeNews (w :: ws) fresh).1
          = w :: (takeNews ws (fresh.erase w)).1 := by simp [takeNews, hw]
      rw [hun, List.mem_cons] at h
      rcases h with rfl | h
      · exact List.mem_cons_self _ _
      · exact List.mem_cons_of_mem _ (ih h)
    · have hun : (takeNews (w :: ws) fresh).1 = (takeNews ws fresh).1 := by
        simp [takeNews, hw]
      rw [hun] at h
      exact List.mem_cons_of_mem _ (ih h)

theorem bfsAux_succ {G : DiGraph} :
    ∀ (fuel : Nat) (q fresh : List String) {u v : String},
      (u, v) ∈ bfsAux G fuel q fresh → v ∈ successors G u := by
  intro fuel
  induction fuel with
  | zero => intro q fresh u v h; simp [bfsAux] at h
  | succ fuel ih =>
    intro q fresh u v h
    match q with
    | [] => simp [bfsAux] at h
    | u0 :: q' =>
      have hunf : bfsAux G (fuel + 1) (u0 :: q') fresh
          = (takeNews (successors G u0) fresh).1.map (fun w => (u0, w))
            ++ bfsAux G fuel (q' ++ (takeNews (successors G u0) fresh).1)
              (takeNews (successors G u0) fresh).2 := by
        simp [bfsAux]
      rw [hunf] at h
      rcases List.mem_append.mp h with h | h
      · rcases List.mem_map.mp h with ⟨w, hw, hww⟩
        injection hww with h1 h2
        subst h1; subst h2
        exact takeNews_fst_sub hw
      · exact ih _ _ h

theorem hasNode_iff {G : DiGraph} {s : String} :
    G.hasNode s = true ↔ s ∈ G.nodeNames := by
  constructor
  · intro h
    rcases List.any_eq_true.mp h with ⟨p, hp, hps⟩
    exact List.mem_map.mpr ⟨p, hp, beq_iff_eq.mp hps⟩
  · intro h
    rcases List.mem_map.mp h with ⟨p, hp, hps⟩
    exact List.any_eq_true.mpr ⟨p, hp, by simp [hps]⟩

theorem insertNew_mem {l : List String} {x v : String} :
    v ∈ insertNew l x ↔ v ∈ l ∨ v = x := by
  by_cases h : x ∈ l
  · simp only [insertNew, if_pos h]
    constructor
    · exact Or.inl
    · rintro (hv | rfl)
      · exact hv
      · exact h
  · simp [insertNew, if_neg h]

theorem bfsFold_mem (bfs : List (String × String)) (base : List String)
    (v : String) :
    v ∈ bfs.foldl (fun imp uv => insertNew imp uv.2) base ↔
      v ∈ base ∨ ∃ u, (u, v) ∈ bfs := by
  induction bfs generalizing base with
  | nil => simp
  | cons uv rest ih =>
    simp only [List.foldl_cons]
    rw [ih, insertNew_mem]
    constructor
    · rintro ((hb | rfl) | ⟨u, hu⟩)
      · exact Or.inl hb
      · exact Or.inr ⟨uv.1, List.mem_cons_self _ _⟩
      · exact Or.inr ⟨u, List.mem_cons_of_mem _ hu⟩
    · rintro (hb | ⟨u, hu⟩)
      · exact Or.inl (Or.inl hb)
      · rcases List.mem_cons.mp hu with h | h
        · exact Or.inl (Or.inr (congrArg Prod.snd h))
        · exact Or.inr ⟨u, h⟩

theorem impactedStep_fst_mem (G : DiGraph) (acc : List String × List EdgeRec)
    (s v : String) :
    v ∈ (impactedStep G acc s).1 ↔
      v ∈ acc.1 ∨ (G.hasNode s = true ∧ (v = s ∨ ∃ u, (u, v) ∈ bfs_edges G s)) := by
  by_cases h : G.hasNode s
  · simp only [impactedStep, if_pos h]
    rw [bfsFold_mem, insertNew_mem]
    constructor
    · rintro ((hb | rfl) | ⟨u, hu⟩)
      · exact Or.inl hb
      · exact Or.inr ⟨h, Or.inl rfl⟩
      · exact Or.inr ⟨h, Or.inr ⟨u, hu⟩⟩
    · rintro (hb | ⟨-, rfl | ⟨u, hu⟩⟩)
      · exact Or.inl (Or.inl hb)
      · exact Or.inl (Or.inr rfl)
      · exact Or.inr ⟨u, hu⟩
  · simp [impactedStep, if_neg h, h]

theorem impactedFold_fst_mem (G : DiGraph) (starts : List String)
    (acc : List String × List EdgeRec) (v : String) :
    v ∈ (starts.foldl (impactedStep G) acc).1 ↔
      v ∈ acc.1 ∨ ∃ s ∈ starts, G.hasNode s = true
        ∧ (v = s ∨ ∃ u, (u, v) ∈ bfs_edges G s) := by
  induction starts generalizing acc with
  | nil => simp
  | cons s0 rest ih =>
    simp only [List.foldl_cons]
    rw [ih, impactedStep_fst_mem]
    constructor
    · rintro ((hb | hh) | ⟨s, hs, hsp⟩)
      · exact Or.inl hb
      · exact Or.inr ⟨s0, List.mem_cons_self _ _, hh⟩
      · exact Or.inr ⟨s, List.mem_cons_of_mem _ hs, hsp⟩
    · rintro (hb | ⟨s, hs, hsp⟩)
      · exact Or.inl (Or.inl hb)
      · rcases List.mem_cons.mp hs with rfl | hs
        · exact Or.inl (Or.inr hsp)
        · exact Or.inr ⟨s, hs, hsp⟩

theorem impactedFold_snd (G : DiGraph) (starts : List String)
    (acc : List String × List EdgeRec) :
    (starts.foldl (impactedStep G) acc).2 =
      acc.2 ++ starts.flatMap (fun s =>
        if G.hasNode s then originEdgeRecs G s else []) := by
  induction starts generalizing acc with
  | nil => simp
  | cons s0 rest ih =>
    simp only [List.foldl_cons, List.flatMap_cons]
    rw [ih]
    by_cases h : G.hasNode s0
    · simp [impactedStep, if_pos h, h, List.append_assoc]
    · simp [impactedStep, if_neg h, h]

theorem find?_edge {l : List (String × String × EdgeAttr)}
    (hk : (l.map (fun e => (e.1, e.2.1))).Nodup) {u v : String} {a : EdgeAttr}
    (ha : (u, v, a) ∈ l) :
    l.find? (fun e => e.1 == u && e.2.1 == v) = some (u, v, a) := by
  induction l with
  | nil => simp at ha
  | cons e es ih =>
    rcases List.mem_cons.mp ha with rfl | hmem
    · exact List.find?_cons_of_pos _ (by simp)
    · have hk' := (List.nodup_cons.mp hk).2
      have hne : ¬(e.1 == u && e.2.1 == v) = true := by
        intro hpred
        simp only [Bool.and_eq_true, beq_iff_eq] at hpred
        rcases hpred with ⟨h1', h2'⟩
        have hm : (e.1, e.2.1) ∈ es.map (fun e => (e.1, e.2.1)) :=
          List.mem_map.mpr ⟨(u, v, a), hmem, by simp [h1', h2']⟩
        exact (List.nodup_cons.mp hk).1 hm
      rw [List.find?_cons_of_neg es hne]
      exact ih hk' hmem

theorem get_edge_data_eq {G : DiGraph}
    (hk : (G.edges.map (fun e => (e.1, e.2.1))).Nodup) {u v : String}
    {a : EdgeAttr} (ha : (u, v, a) ∈ G.edges) : get_edge_data G u v = a := by
  unfold get_edge_data
  rw [find?_edge hk ha]
  rfl

theorem impacted_fst (resolve : String → Option String)
    (changed_files : List String) (services : List (String × List String))
    (G : DiGraph) :
    (impacted_services_from_files resolve changed_files services G).1
      = sortLe strLe ((startList resolve changed_files services).foldl
          (impactedStep G) ([], [])).1 := rfl

theorem impacted_snd (resolve : String → Option String)
    (changed_files : List String) (services : List (String × List String))
    (G : DiGraph) :
    (impacted_services_from_files resolve changed_files services G).2
      = ((startList resolve changed_files services).foldl
          (impactedStep G) ([], [])).2 := rfl

theorem strLe_bool_trans : ∀ (a b c : String), strLe a b = true →
    strLe b c = true → strLe a c = true :=
  fun _ _ _ h1 h2 => strLe_trans h1 h2

theorem strLe_bool_total : ∀ (a b : String), (strLe a b || strLe b a) = true :=
  fun a b => by rcases strLe_total a b with h | h <;> simp [h]

/-- C1: `impacted_services_from_files` returns exactly the origins
present as nodes of `G` together with every node forward-reachable from
some such origin and nothing else, sorted lexicographically, and the
traversed edges are the per-origin breadth-first discovery-order edge
records, not deduplicated across origins, each carrying a real edge of
`G` with its attributes. -/
theorem impacted_services_from_files_spec (resolve : String → Option String)
    (changed_files : List String) (services : List (String × List String))
    (G : DiGraph) (hwf : G.WF) :
    ImpactedSpec resolve changed_files services G := by
  obtain ⟨hnd, hends, hkeys⟩ := hwf
  have hends' : ∀ e ∈ G.edges, e.2.1 ∈ G.nodeNames :=
    fun e he => (hends e he).2
  refine ⟨?_, ?_, ?_, ?_⟩
  · intro v
    rw [impacted_fst, sortLe_mem, impactedFold_fst_mem]
    simp only [List.not_mem_nil, false_or]
    constructor
    · rintro ⟨s, hs, hn, hreach⟩
      exact ⟨s, hs, hasNode_iff.mp hn,
        (reaches_iff_bfs hnd hends').mpr hreach⟩
    · rintro ⟨s, hs, hn, hreach⟩
      exact ⟨s, hs, hasNode_iff.mpr hn,
        (reaches_iff_bfs hnd hends').mp hreach⟩
  · rw [impacted_fst]
    exact sortLe_sorted strLe_bool_trans strLe_bool_total _
  · rw [impacted_snd, impactedFold_snd]
    simp
  · intro er her
    rw [impacted_snd, impactedFold_snd] at her
    simp only [List.nil_append] at her
    rcases List.mem_flatMap.mp her with ⟨s, _, hin⟩
    by_cases hn : G.hasNode s
    · rw [if_pos hn] at hin
      rcases List.mem_map.mp hin with ⟨uv, huv, rfl⟩
      rcases mem_successors.mp (bfsAux_succ _ _ _ huv) with ⟨a, ha⟩
      have := get_edge_data_eq hkeys ha
      simpa [this] using ha
    · rw [if_neg hn] at hin
      simp at hin

/-- Witness for C1: the specification instantiated on the spec's
scenario graph `A -> B -> C` with the changed file resolving to origin
`A`. -/
theorem impacted_services_from_files_spec_witness :
    ImpactedSpec resolveW ["fileA"] [] Gw :=
  impacted_services_from_files_spec resolveW ["fileA"] [] Gw (by decide)

/-! ## Lemmas: structural effect of the enrichment pass -/

theorem enrich_nodeNames (M : MetricComps) (G : DiGraph) :
    (enrich_graph_with_metrics M G).nodeNames = G.nodeNames := by
  unfold enrich_graph_with_metrics
  by_cases h : G.nodes.isEmpty
  · rw [if_pos h]
  · rw [if_neg h]
    simp [DiGraph.nodeNames]

theorem enrich_edges_mem {M : MetricComps} {G : DiGraph} {e}
    (he : e ∈ (enrich_graph_with_metrics M G).edges) :
    ∃ e0 ∈ G.edges, e.1 = e0.1 ∧ e.2.1 = e0.2.1
      ∧ e.2.2.weight = e0.2.2.weight := by
  unfold enrich_graph_with_metrics at he
  by_cases h : G.nodes.isEmpty
  · rw [if_pos h] at he
    exact ⟨e, he, rfl, rfl, rfl⟩
  · rw [if_neg h] at he
    simp only at he
    by_cases hmw : 0 < maxWeight G
    · rw [if_pos hmw] at he
      rcases List.mem_map.mp he with ⟨e0, he0, rfl⟩
      exact ⟨e0, he0, rfl, rfl, rfl⟩
    · rw [if_neg hmw] at he
      exact ⟨e, he, rfl, rfl, rfl⟩

theorem find?_map_keyed (l : List (String × NodeAttr))
    (f : String → NodeAttr → NodeAttr) (n : String) :
    ((l.map (fun p => (p.1, f p.1 p.2))).find? (fun p => p.1 == n)).map
        (fun p => p.2)
      = ((l.find? (fun p => p.1 == n)).map (fun p => p.2)).map (f n) := by
  induction l with
  | nil => rfl
  | cons p ps ih =>
    by_cases hp : p.1 = n
    · simp only [List.map_cons]
      rw [List.find?_cons_of_pos _ (by simp [hp]),
        List.find?_cons_of_pos _ (by simp [hp])]
      simp [hp]
    · simp only [List.map_cons]
      rw [List.find?_cons_of_neg _ (by simp [hp]),
        List.find?_cons_of_neg _ (by simp [hp])]
      exact ih

theorem enrich_nodeFind (M : MetricComps) (G : DiGraph) (n : String)
    (hne : ¬G.nodes.isEmpty) :
    nodeFind (enrich_graph_with_metrics M G) n
      = (nodeFind G n).map (fun a =>
          { a with
            pagerank := some (lookupD ((M.prC (core G)).getD []) n 0)
            centrality := some (lookupD ((M.degC (core G)).getD []) n 0)
            betweenness := some (lookupD ((M.btwC (core G)).getD []) n 0)
            scc_size := some (lookupD ((M.sccC (core G)).getD []) n 1)
            downstream_count := some ((M.descC (core G) n).getD 0) }) := by
  unfold enrich_graph_with_metrics
  rw [if_neg hne]
  unfold nodeFind
  dsimp only
  exact find?_map_keyed G.nodes (fun k a =>
    { a with
      pagerank := some (lookupD ((M.prC (core G)).getD []) k 0)
      centrality := some (lookupD ((M.degC (core G)).getD []) k 0)
      betweenness := some (lookupD ((M.btwC (core G)).getD []) k 0)
      scc_size := some (lookupD ((M.sccC (core G)).getD []) k 1)
      downstream_count := some ((M.descC (core G) k).getD 0) }) n

/-- Enrichment never changes the `file_count` attribute of a node. -/
theorem enrich_file_count {M : MetricComps} {G : DiGraph} {n : String}
    {a : NodeAttr} (ha : nodeFind G n = some a) :
    ∃ a', nodeFind (enrich_graph_with_metrics M G) n = some a'
      ∧ a'.file_count = a.file_count := by
  by_cases hne : G.nodes.isEmpty
  · refine ⟨a, ?_, rfl⟩
    unfold enrich_graph_with_metrics
    rw [if_pos hne]
    exact ha
  · rw [enrich_nodeFind M G n hne, ha]
    exact ⟨_, rfl, rfl⟩

/-! ## Lemmas: the service dependency builder (no self-dependencies,
counts at least one) -/

theorem matchTarget_ne {svc dep : String}
    {idMap : List (String × List String)} {t : String}
    (h : matchTarget svc dep idMap = some t) : t ≠ svc := by
  unfold matchTarget at h
  rcases Option.map_eq_some'.mp h with ⟨ti, hfind, rfl⟩
  have hp := List.find?_some hfind
  simp only [Bool.and_eq_true, bne_iff_ne] at hp
  exact hp.1

theorem addDep_prop {P : String → Prop} {deps : List (String × Nat)}
    (hd : ∀ p ∈ deps, P p.1 ∧ 1 ≤ p.2) {t : String} (ht : P t) :
    ∀ p ∈ addDep deps t, P p.1 ∧ 1 ≤ p.2 := by
  intro p hp
  unfold addDep at hp
  by_cases h : deps.any (fun p => p.1 == t)
  · rw [if_pos h] at hp
    rcases List.mem_map.mp hp with ⟨p0, hp0, rfl⟩
    by_cases he : p0.1 == t
    · simp only [he, if_true, if_pos]
      exact ⟨(hd p0 hp0).1, Nat.le_succ_of_le (hd p0 hp0).2⟩
    · simp only [he, Bool.false_eq_true, if_false, if_neg]
      exact hd p0 hp0
  · rw [if_neg h] at hp
    rcases List.mem_append.mp hp with h0 | h0
    · exact hd p h0
    · rcases List.mem_singleton.mp h0 with rfl
      exact ⟨ht, le_refl 1⟩

theorem svcDeps_prop (readF : String → String)
    (extract : String → String → List String)
    (idMap : List (String × List String)) (svc : String)
    (files : List String) :
    ∀ p ∈ svcDeps readF extract idMap svc files, p.1 ≠ svc ∧ 1 ≤ p.2 := by
  unfold svcDeps
  have hstep : ∀ (toks : List String) (acc : List (String × Nat)),
      (∀ p ∈ acc, p.1 ≠ svc ∧ 1 ≤ p.2) →
      ∀ p ∈ toks.foldl (fun acc2 dep =>
        match matchTarget svc dep idMap with
        | some t => addDep acc2 t
        | none => acc2) acc, p.1 ≠ svc ∧ 1 ≤ p.2 := by
    intro toks
    induction toks with
    | nil => intro acc hacc; exact hacc
    | cons d ds ih =>
      intro acc hacc
      simp only [List.foldl_cons]
      apply ih
      cases hm : matchTarget svc d idMap with
      | none => simpa [hm] using hacc
      | some t =>
        simp only [hm]
        exact addDep_prop (P := fun x => x ≠ svc) hacc (matchTarget_ne hm)
  have hfiles : ∀ (fs : List String) (acc : List (String × Nat)),
      (∀ p ∈ acc, p.1 ≠ svc ∧ 1 ≤ p.2) →
      ∀ p ∈ fs.foldl (fun acc fp =>
        if readF fp = "" then acc
        else (extract (readF fp) fp).foldl (fun acc2 dep =>
          match matchTarget svc dep idMap with
          | some t => addDep acc2 t
          | none => acc2) acc) acc, p.1 ≠ svc ∧ 1 ≤ p.2 := by
    intro fs
    induction fs with
    | nil => intro acc hacc; exact hacc
    | cons f fs ih =>
      intro acc hacc
      simp only [List.foldl_cons]
      apply ih
      by_cases hr : readF f = ""
      · simpa [hr] using hacc
      · simp only [if_neg hr]
        exact hstep _ _ hacc
  exact hfiles files [] (by simp)

theorem sdg_deps (readF : String → String)
    (extract : String → String → List String)
    (identsOf : String → List String → List String)
    (contractsOf : String → ContractsMap)
    (services : List (String × List String)) :
    ∀ p ∈ build_service_dependency_graph readF extract identsOf contractsOf
        services, ∀ d ∈ p.2.deps, d.1 ≠ p.1 ∧ 1 ≤ d.2 := by
  intro p hp
  unfold build_service_dependency_graph at hp
  rcases List.mem_map.mp hp with ⟨sf, _, rfl⟩
  exact svcDeps_prop readF extract _ sf.1 sf.2

theorem sdg_keys (readF : String → String)
    (extract : String → String → List String)
    (identsOf : String → List String → List String)
    (contractsOf : String → ContractsMap)
    (services : List (String × List String)) :
    (build_service_dependency_graph readF extract identsOf contractsOf
        services).map (fun p => p.1) = services.map (fun p => p.1) := by
  unfold build_service_dependency_graph
  rw [List.map_map]
  rfl

/-! ## Lemmas: knowledge-graph construction -/

theorem addNodeIfAbsent_edges (G : DiGraph) (n : String) (a : NodeAttr) :
    (addNodeIfAbsent G n a).edges = G.edges := by
  unfold addNodeIfAbsent
  by_cases h : G.hasNode n <;> simp [h]

theorem addEdgeW_nodes (G : DiGraph) (u v : String) (c : Nat) :
    (addEdgeW G u v c).nodes = G.nodes := by
  unfold addEdgeW
  by_cases h : G.edges.any (fun e => e.1 == u && e.2.1 == v) <;> simp [h]

theorem addNodeIfAbsent_names_mem {G : DiGraph} {n : String} {a : NodeAttr}
    {m : String} :
    m ∈ (addNodeIfAbsent G n a).nodeNames ↔ m ∈ G.nodeNames ∨ m = n := by
  unfold addNodeIfAbsent
  by_cases h : G.hasNode n
  · rw [if_pos h]
    constructor
    · exact Or.inl
    · rintro (hm | rfl)
      · exact hm
      · exact hasNode_iff.mp h
  · rw [if_neg h]
    simp [DiGraph.nodeNames]

theorem nodeFind_of_not_hasNode {G : DiGraph} {n : String}
    (h : ¬G.hasNode n = true) : nodeFind G n = none := by
  unfold nodeFind
  rw [List.find?_eq_none.mpr, Option.map_none']
  intro p hp hpn
  exact h (List.any_eq_true.mpr ⟨p, hp, hpn⟩)

theorem addNodeIfAbsent_nodeFind_stable {G : DiGraph} {n : String}
    {a0 : NodeAttr} {m : String} {a : NodeAttr}
    (hm : nodeFind G m = some a) :
    nodeFind (addNodeIfAbsent G n a0) m = some a := by
  unfold addNodeIfAbsent
  by_cases h : G.hasNode n
  · rw [if_pos h]; exact hm
  · rw [if_neg h]
    unfold nodeFind at hm ⊢
    rw [List.find?_append]
    rcases Option.map_eq_some'.mp hm with ⟨p, hp, rfl⟩
    rw [hp]
    rfl

theorem addNodeIfAbsent_nodeFind_new {G : DiGraph} {n : String}
    {a0 : NodeAttr} (h : ¬G.hasNode n = true) :
    nodeFind (addNodeIfAbsent G n a0) n = some a0 := by
  unfold addNodeIfAbsent
  rw [if_neg h]
  unfold nodeFind
  rw [List.find?_append]
  have h1 : G.nodes.find? (fun p => p.1 == n) = none := by
    rw [List.find?_eq_none]
    intro p hp hpn
    exact h (List.any_eq_true.mpr ⟨p, hp, hpn⟩)
  rw [h1]
  simp [List.find?]

theorem addEdgeW_nodeFind (G : DiGraph) (u v : String) (c : Nat)
    (m : String) : nodeFind (addEdgeW G u v c) m = nodeFind G m := by
  unfold nodeFind
  rw [addEdgeW_nodes]

theorem addEdgeW_names (G : DiGraph) (u v : String) (c : Nat) :
    (addEdgeW G u v c).nodeNames = G.nodeNames := by
  unfold DiGraph.nodeNames
  rw [addEdgeW_nodes]

theorem addEdgeW_prop {Q : String → String → Option ℚ → Prop} {G : DiGraph}
    {u v : String} {c : Nat}
    (hG : ∀ e ∈ G.edges, Q e.1 e.2.1 e.2.2.weight)
    (hnew : Q u v (some (c : ℚ))) :
    ∀ e ∈ (addEdgeW G u v c).edges, Q e.1 e.2.1 e.2.2.weight := by
  intro e he
  unfold addEdgeW at he
  by_cases h : G.edges.any (fun e => e.1 == u && e.2.1 == v)
  · rw [if_pos h] at he
    dsimp only at he
    rcases List.mem_map.mp he with ⟨e0, he0, rfl⟩
    by_cases hp : (e0.1 == u && e0.2.1 == v) = true
    · rw [if_pos hp]
      simp only [Bool.and_eq_true, beq_iff_eq] at hp
      dsimp only
      rw [hp.1, hp.2]
      exact hnew
    · rw [if_neg hp]
      exact hG e0 he0
  · rw [if_neg h] at he
    dsimp only at he
    rcases List.mem_append.mp he with h0 | h0
    · exact hG e h0
    · rcases List.mem_singleton.mp h0 with rfl
      exact hnew

theorem addEdgeW_edge_src {G : DiGraph} {u v : String} {c : Nat} {e}
    (he : e ∈ (addEdgeW G u v c).edges) :
    (e.1 = u ∧ e.2.1 = v) ∨ ∃ e0 ∈ G.edges, e.1 = e0.1 ∧ e.2.1 = e0.2.1 := by
  unfold addEdgeW at he
  by_cases h : G.edges.any (fun e => e.1 == u && e.2.1 == v)
  · rw [if_pos h] at he
    dsimp only at he
    rcases List.mem_map.mp he with ⟨e0, he0, rfl⟩
    by_cases hp : (e0.1 == u && e0.2.1 == v) = true
    · rw [if_pos hp]
      simp only [Bool.and_eq_true, beq_iff_eq] at hp
      exact Or.inl ⟨hp.1, hp.2⟩
    · rw [if_neg hp]
      exact Or.inr ⟨e0, he0, rfl, rfl⟩
  · rw [if_neg h] at he
    dsimp only at he
    rcases List.mem_append.mp he with h0 | h0
    · exact Or.inr ⟨e, h0, rfl, rfl⟩
    · rcases List.mem_singleton.mp h0 with rfl
      exact Or.inl ⟨rfl, rfl⟩

theorem kgDepStep_nodeFind_stable {svc : String} {Gi : DiGraph}
    {dc : String × Nat} {m : String} {a : NodeAttr}
    (hm : nodeFind Gi m = some a) :
    nodeFind (kgDepStep svc Gi dc) m = some a := by
  unfold kgDepStep
  rw [addEdgeW_nodeFind]
  exact addNodeIfAbsent_nodeFind_stable hm

theorem kgDepStep_names_mem {svc : String} {Gi : DiGraph} {dc : String × Nat}
    {m : String} :
    m ∈ (kgDepStep svc Gi dc).nodeNames ↔ m ∈ Gi.nodeNames ∨ m = dc.1 := by
  unfold kgDepStep
  rw [addEdgeW_names]
  exact addNodeIfAbsent_names_mem

theorem kgDepStep_new_attr {svc : String} {Gi : DiGraph} {dc : String × Nat}
    (h : ¬Gi.hasNode dc.1 = true) :
    nodeFind (kgDepStep svc Gi dc) dc.1 = some depNodeAttr := by
  unfold kgDepStep
  rw [addEdgeW_nodeFind]
  exact addNodeIfAbsent_nodeFind_new h

theorem kgDepsFold_nodeFind_stable (svc : String) (ds : List (String × Nat))
    {Gi : DiGraph} {m : String} {a : NodeAttr}
    (hm : nodeFind Gi m = some a) :
    nodeFind (ds.foldl (kgDepStep svc) Gi) m = some a := by
  induction ds generalizing Gi with
  | nil => exact hm
  | cons d ds ih =>
    simp only [List.foldl_cons]
    exact ih (kgDepStep_nodeFind_stable hm)

theorem kgDepsFold_names_mem (svc : String) (ds : List (String × Nat))
    (Gi : DiGraph) (m : String) :
    m ∈ (ds.foldl (kgDepStep svc) Gi).nodeNames ↔
      m ∈ Gi.nodeNames ∨ ∃ d ∈ ds, m = d.1 := by
  induction ds generalizing Gi with
  | nil => simp
  | cons d ds ih =>
    simp only [List.foldl_cons]
    rw [ih, kgDepStep_names_mem]
    constructor
    · rintro ((hm | rfl) | ⟨d0, hd0, rfl⟩)
      · exact Or.inl hm
      · exact Or.inr ⟨d, List.mem_cons_self _ _, rfl⟩
      · exact Or.inr ⟨d0, List.mem_cons_of_mem _ hd0, rfl⟩
    · rintro (hm | ⟨d0, hd0, rfl⟩)
      · exact Or.inl (Or.inl hm)
      · rcases List.mem_cons.mp hd0 with rfl | hd0
        · exact Or.inl (Or.inr rfl)
        · exact Or.inr ⟨d0, hd0, rfl⟩

theorem kgStep_nodeFind_stable {G : DiGraph} {p : String × SvcEntry}
    {m : String} {a : NodeAttr} (hm : nodeFind G m = some a) :
    nodeFind (kgStep G p) m = some a := by
  unfold kgStep
  exact kgDepsFold_nodeFind_stable _ _ (addNodeIfAbsent_nodeFind_stable hm)

theorem kgStep_names_mem {G : DiGraph} {p : String × SvcEntry} {m : String} :
    m ∈ (kgStep G p).nodeNames ↔
      m ∈ G.nodeNames ∨ m = p.1 ∨ ∃ d ∈ p.2.deps, m = d.1 := by
  unfold kgStep
  rw [kgDepsFold_names_mem, addNodeIfAbsent_names_mem]
  tauto

theorem kgDepsFold_inv {K : List String} (svc : String)
    (ds : List (String × Nat)) {Gi : DiGraph}
    (hInv : ∀ n ∈ Gi.nodeNames, n ∈ K ∨ nodeFind Gi n = some depNodeAttr) :
    ∀ n ∈ (ds.foldl (kgDepStep svc) Gi).nodeNames,
      n ∈ K ∨ nodeFind (ds.foldl (kgDepStep svc) Gi) n = some depNodeAttr := by
  induction ds generalizing Gi with
  | nil => exact hInv
  | cons d ds ih =>
    simp only [List.foldl_cons]
    apply ih
    intro n hn
    rcases kgDepStep_names_mem.mp hn with hm | rfl
    · rcases hInv n hm with hK | hF
      · exact Or.inl hK
      · exact Or.inr (kgDepStep_nodeFind_stable hF)
    · by_cases hh : Gi.hasNode d.1
      · rcases hInv d.1 (hasNode_iff.mp hh) with hK | hF
        · exact Or.inl hK
        · exact Or.inr (kgDepStep_nodeFind_stable hF)
      · exact Or.inr (kgDepStep_new_attr hh)

theorem kgStep_inv {K : List String} {G : DiGraph} {p : String × SvcEntry}
    (hp : p.1 ∈ K)
    (hInv : ∀ n ∈ G.nodeNames, n ∈ K ∨ nodeFind G n = some depNodeAttr) :
    ∀ n ∈ (kgStep G p).nodeNames,
      n ∈ K ∨ nodeFind (kgStep G p) n = some depNodeAttr := by
  unfold kgStep
  apply kgDepsFold_inv
  intro n hn
  rcases addNodeIfAbsent_names_mem.mp hn with hm | rfl
  · rcases hInv n hm with hK | hF
    · exact Or.inl hK
    · exact Or.inr (addNodeIfAbsent_nodeFind_stable hF)
  · exact Or.inl hp

theorem kgFold_inv {K : List String} (l : List (String × SvcEntry))
    {G0 : DiGraph} (hl : ∀ p ∈ l, p.1 ∈ K)
    (h0 : ∀ n ∈ G0.nodeNames, n ∈ K ∨ nodeFind G0 n = some depNodeAttr) :
    ∀ n ∈ (l.foldl kgStep G0).nodeNames,
      n ∈ K ∨ nodeFind (l.foldl kgStep G0) n = some depNodeAttr := by
  induction l generalizing G0 with
  | nil => exact h0
  | cons p l ih =>
    simp only [List.foldl_cons]
    exact ih (fun q hq => hl q (List.mem_cons_of_mem _ hq))
      (kgStep_inv (hl p (List.mem_cons_self _ _)) h0)

theorem kgFold_names_mono (l : List (String × SvcEntry)) {G0 : DiGraph}
    {m : String} (hm : m ∈ G0.nodeNames) :
    m ∈ (l.foldl kgStep G0).nodeNames := by
  induction l generalizing G0 with
  | nil => exact hm
  | cons p l ih =>
    simp only [List.foldl_cons]
    exact ih (kgStep_names_mem.mpr (Or.inl hm))

theorem kgFold_mem_key (l : List (String × SvcEntry)) (G0 : DiGraph) :
    ∀ p ∈ l, p.1 ∈ (l.foldl kgStep G0).nodeNames := by
  induction l generalizing G0 with
  | nil => simp
  | cons q l ih =>
    intro p hp
    simp only [List.foldl_cons]
    rcases List.mem_cons.mp hp with rfl | hp
    · exact kgFold_names_mono l (kgStep_names_mem.mpr (Or.inr (Or.inl rfl)))
    · exact ih _ p hp

theorem kgFold_mem_dep (l : List (String × SvcEntry)) (G0 : DiGraph) :
    ∀ p ∈ l, ∀ d ∈ p.2.deps, d.1 ∈ (l.foldl kgStep G0).nodeNames := by
  induction l generalizing G0 with
  | nil => simp
  | cons q l ih =>
    intro p hp d hd
    simp only [List.foldl_cons]
    rcases List.mem_cons.mp hp with rfl | hp
    · refine kgFold_names_mono l ?_
      unfold kgStep
      rw [kgDepsFold_names_mem]
      exact Or.inr ⟨d, hd, rfl⟩
    · exact ih _ p hp d hd

theorem kgDepStep_inv2 {svc : String} {Gi : DiGraph} {dc : String × Nat}
    (hsvc : svc ∈ Gi.nodeNames)
    (hInv : ∀ e ∈ Gi.edges, e.1 ∈ Gi.nodeNames ∧ e.2.1 ∈ Gi.nodeNames) :
    ∀ e ∈ (kgDepStep svc Gi dc).edges,
      e.1 ∈ (kgDepStep svc Gi dc).nodeNames
        ∧ e.2.1 ∈ (kgDepStep svc Gi dc).nodeNames := by
  intro e he
  have hnames : ∀ m, m ∈ Gi.nodeNames → m ∈ (kgDepStep svc Gi dc).nodeNames :=
    fun m hm => kgDepStep_names_mem.mpr (Or.inl hm)
  have hdc : dc.1 ∈ (kgDepStep svc Gi dc).nodeNames :=
    kgDepStep_names_mem.mpr (Or.inr rfl)
  have he' : e ∈ (addEdgeW (addNodeIfAbsent Gi dc.1 depNodeAttr) svc dc.1
      dc.2).edges := he
  rcases addEdgeW_edge_src he' with ⟨h1, h2⟩ | ⟨e0, he0, h1, h2⟩
  · exact ⟨h1 ▸ hnames svc hsvc, h2 ▸ hdc⟩
  · rw [addNodeIfAbsent_edges] at he0
    exact ⟨h1 ▸ hnames _ (hInv e0 he0).1, h2 ▸ hnames _ (hInv e0 he0).2⟩

theorem kgDepsFold_inv2 {svc : String} (ds : List (String × Nat))
    {Gi : DiGraph} (hsvc : svc ∈ Gi.nodeNames)
    (hInv : ∀ e ∈ Gi.edges, e.1 ∈ Gi.nodeNames ∧ e.2.1 ∈ Gi.nodeNames) :
    ∀ e ∈ (ds.foldl (kgDepStep svc) Gi).edges,
      e.1 ∈ (ds.foldl (kgDepStep svc) Gi).nodeNames
        ∧ e.2.1 ∈ (ds.foldl (kgDepStep svc) Gi).nodeNames := by
  induction ds generalizing Gi with
  | nil => exact hInv
  | cons d ds ih =>
    simp only [List.foldl_cons]
    exact ih (kgDepStep_names_mem.mpr (Or.inl hsvc)) (kgDepStep_inv2 hsvc hInv)

theorem kgStep_inv2 {G : DiGraph} {p : String × SvcEntry}
    (hInv : ∀ e ∈ G.edges, e.1 ∈ G.nodeNames ∧ e.2.1 ∈ G.nodeNames) :
    ∀ e ∈ (kgStep G p).edges,
      e.1 ∈ (kgStep G p).nodeNames ∧ e.2.1 ∈ (kgStep G p).nodeNames := by
  unfold kgStep
  apply kgDepsFold_inv2
  · exact addNodeIfAbsent_names_mem.mpr (Or.inr rfl)
  · intro e he
    rw [addNodeIfAbsent_edges] at he
    exact ⟨addNodeIfAbsent_names_mem.mpr (Or.inl (hInv e he).1),
      addNodeIfAbsent_names_mem.mpr (Or.inl (hInv e he).2)⟩

theorem kgFold_inv2 (l : List (String × SvcEntry)) {G0 : DiGraph}
    (h0 : ∀ e ∈ G0.edges, e.1 ∈ G0.nodeNames ∧ e.2.1 ∈ G0.nodeNames) :
    ∀ e ∈ (l.foldl kgStep G0).edges,
      e.1 ∈ (l.foldl kgStep G0).nodeNames
        ∧ e.2.1 ∈ (l.foldl kgStep G0).nodeNames := by
  induction l generalizing G0 with
  | nil => exact h0
  | cons p l ih =>
    simp only [List.foldl_cons]
    exact ih (kgStep_inv2 h0)

theorem kgDepsFold_edges_prop {Q : String → String → Option ℚ → Prop}
    {svc : String} (ds : List (String × Nat)) {Gi : DiGraph}
    (hG : ∀ e ∈ Gi.edges, Q e.1 e.2.1 e.2.2.weight)
    (hds : ∀ d ∈ ds, Q svc d.1 (some (d.2 : ℚ))) :
    ∀ e ∈ (ds.foldl (kgDepStep svc) Gi).edges, Q e.1 e.2.1 e.2.2.weight := by
  induction ds generalizing Gi with
  | nil => exact hG
  | cons d ds ih =>
    simp only [List.foldl_cons]
    refine ih ?_ (fun d0 hd0 => hds d0 (List.mem_cons_of_mem _ hd0))
    unfold kgDepStep
    apply addEdgeW_prop
    · intro e he
      rw [addNodeIfAbsent_edges] at he
      exact hG e he
    · exact hds d (List.mem_cons_self _ _)

theorem kgFold_edges_prop {Q : String → String → Option ℚ → Prop}
    (l : List (String × SvcEntry)) {G0 : DiGraph}
    (h0 : ∀ e ∈ G0.edges, Q e.1 e.2.1 e.2.2.weight)
    (hl : ∀ p ∈ l, ∀ d ∈ p.2.deps, Q p.1 d.1 (some (d.2 : ℚ))) :
    ∀ e ∈ (l.foldl kgStep G0).edges, Q e.1 e.2.1 e.2.2.weight := by
  induction l generalizing G0 with
  | nil => exact h0
  | cons p l ih =>
    simp only [List.foldl_cons]
    refine ih ?_ (fun q hq => hl q (List.mem_cons_of_mem _ hq))
    unfold kgStep
    apply kgDepsFold_edges_prop
    · intro e he
      rw [addNodeIfAbsent_edges] at he
      exact h0 e he
    · exact hl p (List.mem_cons_self _ _)

/-- C2: through the whole pipeline (dependency scan, then knowledge
graph conversion and enrichment), no edge is a self-loop and every edge
weight is an integer of at least one — for every services mapping and
arbitrary file contents, extraction results and identifier sets. -/
theorem builder_no_self_loops (readF : String → String)
    (extract : String → String → List String)
    (identsOf : String → List String → List String)
    (contractsOf : String → ContractsMap) (M : MetricComps)
    (services : List (String × List String)) :
    ∀ e ∈ (build_knowledge_graph M (build_service_dependency_graph readF
        extract identsOf contractsOf services)).edges,
      e.1 ≠ e.2.1 ∧ ∃ n : ℕ, 1 ≤ n ∧ e.2.2.weight = some (n : ℚ) := by
  intro e he
  unfold build_knowledge_graph at he
  rcases enrich_edges_mem he with ⟨e0, he0, h1, h2, h3⟩
  have hq := kgFold_edges_prop
    (Q := fun s t w => s ≠ t ∧ ∃ n : ℕ, 1 ≤ n ∧ w = some (n : ℚ))
    (build_service_dependency_graph readF extract identsOf contractsOf
      services)
    (by simp [kgBuild])
    (by
      intro p hp d hd
      rcases sdg_deps readF extract identsOf contractsOf services p hp d hd
        with ⟨hne, hge⟩
      exact ⟨fun h => hne h.symm, d.2, hge, rfl⟩)
    e0 he0
  rw [h1, h2, h3]
  exact hq

/-- Witness for C2 at the concrete two-service pipeline where `svc-a`
references `svc-b` once. -/
theorem builder_no_self_loops_witness :
    "svc-a" ≠ "svc-b"
      ∧ ∃ n : ℕ, 1 ≤ n
        ∧ (EdgeAttr.mk (some 1) (some ((1 : ℚ) / 1))).weight
            = some (n : ℚ) := by
  have h := builder_no_self_loops readFW extractW identsW contractsNone
    noMetrics servicesW ("svc-a", "svc-b", ⟨some 1, some ((1 : ℚ) / 1)⟩) (by
      rw [show (build_knowledge_graph noMetrics
        (build_service_dependency_graph readFW extractW identsW contractsNone
          servicesW)).edges
        = [("svc-a", "svc-b", ⟨some 1, some ((1 : ℚ) / 1)⟩)] from rfl]
      exact List.mem_singleton.mpr rfl)
  exact h

/-- C3: every service of the service-level graph appears as a node of
the built knowledge graph even when it has no edges, every edge's
endpoints are nodes (so traversal never meets a missing node), and a
dependency target that is not itself a discovered service carries
`file_count = 0`. -/
theorem build_knowledge_graph_nodes (M : MetricComps)
    (sg : List (String × SvcEntry)) :
    (∀ p ∈ sg, p.1 ∈ (build_knowledge_graph M sg).nodeNames)
      ∧ (∀ e ∈ (build_knowledge_graph M sg).edges,
          e.1 ∈ (build_knowledge_graph M sg).nodeNames
            ∧ e.2.1 ∈ (build_knowledge_graph M sg).nodeNames)
      ∧ (∀ p ∈ sg, ∀ d ∈ p.2.deps,
          d.1 ∈ (build_knowledge_graph M sg).nodeNames
            ∧ (d.1 ∉ sg.map (fun q => q.1) →
                ∃ a, nodeFind (build_knowledge_graph M sg) d.1 = some a
                  ∧ a.file_count = some 0)) := by
  have hnames : (build_knowledge_graph M sg).nodeNames
      = (kgBuild sg).nodeNames := enrich_nodeNames M (kgBuild sg)
  refine ⟨?_, ?_, ?_⟩
  · intro p hp
    rw [hnames]
    exact kgFold_mem_key sg ⟨[], []⟩ p hp
  · intro e he
    rcases enrich_edges_mem he with ⟨e0, he0, h1, h2, _⟩
    have := @kgFold_inv2 sg ⟨[], []⟩ (by simp) e0 he0
    rw [hnames, h1, h2]
    exact this
  · intro p hp d hd
    have hdm : d.1 ∈ (kgBuild sg).nodeNames :=
      kgFold_mem_dep sg ⟨[], []⟩ p hp d hd
    refine ⟨by rw [hnames]; exact hdm, ?_⟩
    intro hnk
    have hInv := @kgFold_inv (sg.map (fun q => q.1)) sg
      ⟨[], []⟩ (fun q hq => List.mem_map.mpr ⟨q, hq, rfl⟩)
      (by simp [DiGraph.nodeNames]) d.1 hdm
    rcases hInv with hK | hF
    · exact absurd hK hnk
    · rcases enrich_file_count (M := M) hF with ⟨a', ha', hfc⟩
      exact ⟨a', ha', hfc⟩

/-- Witness for C3: a single service `svc-a` with a dependency-only
target `lib-x`, which must appear as a node with `file_count = 0`. -/
theorem build_knowledge_graph_nodes_witness :
    ("lib-x" ∈ (build_knowledge_graph noMetrics
        [("svc-a", ⟨["f"], [("lib-x", 2)], []⟩)]).nodeNames
      ∧ ("lib-x" ∉ [("svc-a",
            (⟨["f"], [("lib-x", 2)], []⟩ : SvcEntry))].map (fun q => q.1) →
          ∃ a, nodeFind (build_knowledge_graph noMetrics
              [("svc-a", ⟨["f"], [("lib-x", 2)], []⟩)]) "lib-x" = some a
            ∧ a.file_count = some 0)) :=
  (build_knowledge_graph_nodes noMetrics
      [("svc-a", ⟨["f"], [("lib-x", 2)], []⟩)]).2.2
    ("svc-a", ⟨["f"], [("lib-x", 2)], []⟩) (List.mem_singleton.mpr rfl)
    ("lib-x", 2) (List.mem_singleton.mpr rfl)

theorem resolveOrigins_none {resolve : String → Option String}
    {cfs : List String} (h : ∀ cf ∈ cfs, resolve cf = none) :
    resolveOrigins resolve cfs = [] := by
  unfold resolveOrigins
  induction cfs with
  | nil => rfl
  | cons cf cfs ih =>
    simp only [List.foldl_cons, h cf (List.mem_cons_self _ _)]
    exact ih (fun c hc => h c (List.mem_cons_of_mem _ hc))

/-- C4: when no changed file resolves to a service and at least one
service was discovered, the first service of the mapping becomes the
sole origin, and on the knowledge graph built from that same mapping the
returned impacted list is never empty. -/
theorem fallback_first_service (readF : String → String)
    (extract : String → String → List String)
    (identsOf : String → List String → List String)
    (contractsOf : String → ContractsMap) (M : MetricComps)
    (resolve : String → Option String) (cfs : List String)
    (services : List (String × List String)) (hne : services ≠ [])
    (hnores : ∀ cf ∈ cfs, resolve cf = none) :
    ∃ s0 rest, services = s0 :: rest
      ∧ startList resolve cfs services = [s0.1]
      ∧ (impacted_services_from_files resolve cfs services
          (build_knowledge_graph M (build_service_dependency_graph readF
            extract identsOf contractsOf services))).1 ≠ [] := by
  match services, hne with
  | s0 :: rest, _ =>
    refine ⟨s0, rest, rfl, ?_, ?_⟩
    · unfold startList
      rw [resolveOrigins_none hnores]
      rfl
    · have hstart : startList resolve cfs (s0 :: rest) = [s0.1] := by
        unfold startList
        rw [resolveOrigins_none hnores]
        rfl
      have hmem : s0.1 ∈ (build_knowledge_graph M
          (build_service_dependency_graph readF extract identsOf contractsOf
            (s0 :: rest))).nodeNames := by
        unfold build_knowledge_graph
        rw [enrich_nodeNames]
        refine kgFold_mem_key _ ⟨[], []⟩
          (s0.1, { files := s0.2
                   deps := svcDeps readF extract
                     ((s0 :: rest).map (fun sf => (sf.1, identsOf sf.1 sf.2)))
                     s0.1 s0.2
                   contracts := contractsOf s0.1 }) ?_
        unfold build_service_dependency_graph
        exact List.mem_map.mpr ⟨s0, List.mem_cons_self _ _, rfl⟩
      apply List.ne_nil_of_mem (a := s0.1)
      rw [impacted_fst, sortLe_mem, impactedFold_fst_mem, hstart]
      exact Or.inr ⟨s0.1, List.mem_singleton.mpr rfl,
        hasNode_iff.mpr hmem, Or.inl rfl⟩

/-- Witness for C4 on the concrete two-service mapping with a changed
file resolving to nothing. -/
theorem fallback_first_service_witness :
    ∃ s0 rest, servicesW = s0 :: rest
      ∧ startList resolveNone ["zzz"] servicesW = [s0.1]
      ∧ (impacted_services_from_files resolveNone ["zzz"] servicesW
          (build_knowledge_graph noMetrics (build_service_dependency_graph
            readFW extractW identsW contractsNone servicesW))).1 ≠ [] :=
  fallback_first_service readFW extractW identsW contractsNone noMetrics
    resolveNone ["zzz"] servicesW (by simp [servicesW])
    (fun cf _ => rfl)

/-! ## Lemmas: edge-weight normalization -/

theorem foldMax_init (l : List ℚ) (init : ℚ) :
    init ≤ l.foldl (fun m w => if m < w then w else m) init := by
  induction l generalizing init with
  | nil => exact le_refl _
  | cons w ws ih =>
    simp only [List.foldl_cons]
    refine le_trans ?_ (ih _)
    by_cases h : init < w
    · rw [if_pos h]; exact le_of_lt h
    · rw [if_neg h]

theorem foldMax_ge (l : List ℚ) (init : ℚ) :
    ∀ w ∈ l, w ≤ l.foldl (fun m w => if m < w then w else m) init := by
  induction l generalizing init with
  | nil => simp
  | cons w0 ws ih =>
    intro w hw
    simp only [List.foldl_cons]
    rcases List.mem_cons.mp hw with rfl | hw
    · refine le_trans ?_ (foldMax_init ws _)
      by_cases h : init < w
      · rw [if_pos h]
      · rw [if_neg h]; exact le_of_not_lt h
    · exact ih _ w hw

theorem foldMax_attained (l : List ℚ) (init : ℚ) :
    l.foldl (fun m w => if m < w then w else m) init = init
      ∨ ∃ w ∈ l, l.foldl (fun m w => if m < w then w else m) init = w := by
  induction l generalizing init with
  | nil => exact Or.inl rfl
  | cons w0 ws ih =>
    simp only [List.foldl_cons]
    by_cases h : init < w0
    · rw [if_pos h]
      rcases ih w0 with he | ⟨w, hw, he⟩
      · exact Or.inr ⟨w0, List.mem_cons_self _ _, he⟩
      · exact Or.inr ⟨w, List.mem_cons_of_mem _ hw, he⟩
    · rw [if_neg h]
      rcases ih init with he | ⟨w, hw, he⟩
      · exact Or.inl he
      · exact Or.inr ⟨w, List.mem_cons_of_mem _ hw, he⟩

theorem maxWeight_eq (G : DiGraph) :
    maxWeight G = (G.edges.map (fun e => weightD e.2.2)).foldl
      (fun m w => if m < w then w else m) 0 := by
  unfold maxWeight
  rw [List.foldl_map]

theorem maxWeight_ge {G : DiGraph} {e} (he : e ∈ G.edges) :
    weightD e.2.2 ≤ maxWeight G := by
  rw [maxWeight_eq]
  exact foldMax_ge _ 0 _ (List.mem_map.mpr ⟨e, he, rfl⟩)

theorem maxWeight_attained (G : DiGraph) :
    maxWeight G = 0 ∨ ∃ e ∈ G.edges, maxWeight G = weightD e.2.2 := by
  rw [maxWeight_eq]
  rcases foldMax_attained (G.edges.map (fun e => weightD e.2.2)) 0 with h | ⟨w, hw, he⟩
  · exact Or.inl h
  · rcases List.mem_map.mp hw with ⟨e, hem, rfl⟩
    exact Or.inr ⟨e, hem, he⟩

/-- The edge list of the enrichment pass in the normalizing branch. -/
theorem enrich_edges_pos {M : MetricComps} {G : DiGraph}
    (h : ¬G.nodes.isEmpty = true) (hmw : 0 < maxWeight G) :
    (enrich_graph_with_metrics M G).edges
      = G.edges.map (fun e => (e.1, e.2.1,
          { e.2.2 with
            normalized_weight := some (weightD e.2.2 / maxWeight G) })) := by
  unfold enrich_graph_with_metrics
  rw [if_neg h]
  dsimp only
  rw [if_pos hmw]

/-- The edge list of the enrichment pass when no weight is positive. -/
theorem enrich_edges_nonpos {M : MetricComps} {G : DiGraph}
    (h : ¬G.nodes.isEmpty = true) (hmw : ¬0 < maxWeight G) :
    (enrich_graph_with_metrics M G).edges = G.edges := by
  unfold enrich_graph_with_metrics
  rw [if_neg h]
  dsimp only
  rw [if_neg hmw]

/-- C5: after enrichment of a graph whose weights are integers of at
least one, every edge carries `normalized_weight = weight / max-weight`,
a value in `(0, 1]`, and some edge attains exactly `1`; when all weights
are zero (and no normalization had been recorded), the attribute stays
absent. -/
theorem enrich_normalization (M : MetricComps) (G : DiGraph)
    (hnn : G.nodes ≠ []) :
    ((∀ e ∈ G.edges, ∃ n : ℕ, 1 ≤ n ∧ e.2.2.weight = some (n : ℚ)) →
      G.edges ≠ [] →
      (∀ e ∈ (enrich_graph_with_metrics M G).edges,
          e.2.2.normalized_weight = some (weightD e.2.2 / maxWeight G)
            ∧ 0 < weightD e.2.2 / maxWeight G
            ∧ weightD e.2.2 / maxWeight G ≤ 1)
        ∧ (∃ e ∈ (enrich_graph_with_metrics M G).edges,
            e.2.2.normalized_weight = some 1))
      ∧ ((∀ e ∈ G.edges, e.2.2.weight = some 0
            ∧ e.2.2.normalized_weight = none) →
          ∀ e ∈ (enrich_graph_with_metrics M G).edges,
            e.2.2.normalized_weight = none) := by
  have hni : ¬G.nodes.isEmpty = true := by
    simp [List.isEmpty_iff, hnn]
  constructor
  · intro hw hne
    have hwpos : ∀ e ∈ G.edges, 0 < weightD e.2.2 := by
      intro e he
      rcases hw e he with ⟨n, hn1, hneq⟩
      unfold weightD
      rw [hneq]
      simp only [Option.getD_some]
      have h1 : (1 : ℚ) ≤ (n : ℚ) := by exact_mod_cast hn1
      linarith
    have hmw : 0 < maxWeight G := by
      rcases List.exists_mem_of_ne_nil G.edges hne with ⟨e0, he0⟩
      exact lt_of_lt_of_le (hwpos e0 he0) (maxWeight_ge he0)
    rw [enrich_edges_pos hni hmw]
    constructor
    · intro e he
      rcases List.mem_map.mp he with ⟨e0, he0, rfl⟩
      refine ⟨rfl, ?_, ?_⟩
      · show 0 < weightD { e0.2.2 with
          normalized_weight := some (weightD e0.2.2 / maxWeight G) }
            / maxWeight G
        exact div_pos (hwpos e0 he0) hmw
      · show weightD { e0.2.2 with
          normalized_weight := some (weightD e0.2.2 / maxWeight G) }
            / maxWeight G ≤ 1
        exact (div_le_one hmw).mpr (maxWeight_ge he0)
    · rcases maxWeight_attained G with h0 | ⟨e0, he0, hattained⟩
      · exact absurd h0 (ne_of_gt hmw)
      · refine ⟨(e0.1, e0.2.1, { e0.2.2 with
          normalized_weight := some (weightD e0.2.2 / maxWeight G) }),
          List.mem_map.mpr ⟨e0, he0, rfl⟩, ?_⟩
        show some (weightD e0.2.2 / maxWeight G) = some 1
        rw [← hattained, div_self (ne_of_gt hmw)]
  · intro hz
    have hmw : ¬0 < maxWeight G := by
      rcases maxWeight_attained G with h0 | ⟨e0, he0, hattained⟩
      · rw [h0]; exact lt_irrefl 0
      · rw [hattained]
        unfold weightD
        rw [(hz e0 he0).1]
        simp
    rw [enrich_edges_nonpos hni hmw]
    intro e he
    exact (hz e he).2

/-- Witness for C5 on the scenario graph with weights 2 and 1. -/
theorem enrich_normalization_witness :
    (∀ e ∈ (enrich_graph_with_metrics noMetrics Gw).edges,
        e.2.2.normalized_weight = some (weightD e.2.2 / maxWeight Gw)
          ∧ 0 < weightD e.2.2 / maxWeight Gw
          ∧ weightD e.2.2 / maxWeight Gw ≤ 1)
      ∧ (∃ e ∈ (enrich_graph_with_metrics noMetrics Gw).edges,
          e.2.2.normalized_weight = some 1) :=
  (enrich_normalization noMetrics Gw (by simp [Gw])).1
    (by
      intro e he
      rw [show Gw.edges = [("A", "B", ⟨some 2, none⟩),
        ("B", "C", ⟨some 1, none⟩)] from rfl] at he
      rcases List.mem_cons.mp he with rfl | he
      · exact ⟨2, by norm_num, by norm_num⟩
      rcases List.mem_cons.mp he with rfl | he
      · exact ⟨1, by norm_num, by norm_num⟩
      · simp at he)
    (by simp [Gw])

/-! ## Lemmas: neutral defaults when metric computations raise -/

/-- The node list of the enrichment pass when the graph is not empty. -/
theorem enrich_nodes_eq {M : MetricComps} {G : DiGraph}
    (h : ¬G.nodes.isEmpty = true) :
    (enrich_graph_with_metrics M G).nodes
      = G.nodes.map (fun p =>
          (p.1, { p.2 with
            pagerank := some (lookupD ((M.prC (core G)).getD []) p.1 0)
            centrality := some (lookupD ((M.degC (core G)).getD []) p.1 0)
            betweenness := some (lookupD ((M.btwC (core G)).getD []) p.1 0)
            scc_size := some (lookupD ((M.sccC (core G)).getD []) p.1 1)
            downstream_count := some ((M.descC (core G) p.1).getD 0) })) := by
  unfold enrich_graph_with_metrics
  rw [if_neg h]

/-- C6: the enrichment pass is a total function — even on degenerate
graphs it returns (a graph, never an exception), the empty graph being
returned untouched — and whenever an individual metric computation
raises, that metric is written as its neutral default on every node:
`0.0` for pagerank, centrality and betweenness, `1` for the component
size, `0` for the downstream count. -/
theorem enrich_graph_with_metrics_defaults (M : MetricComps) (G : DiGraph) :
    (G.nodes = [] → enrich_graph_with_metrics M G = G)
      ∧ (M.prC (core G) = none →
          ∀ p ∈ (enrich_graph_with_metrics M G).nodes,
            p.2.pagerank = some 0)
      ∧ (M.degC (core G) = none →
          ∀ p ∈ (enrich_graph_with_metrics M G).nodes,
            p.2.centrality = some 0)
      ∧ (M.btwC (core G) = none →
          ∀ p ∈ (enrich_graph_with_metrics M G).nodes,
            p.2.betweenness = some 0)
      ∧ (M.sccC (core G) = none →
          ∀ p ∈ (enrich_graph_with_metrics M G).nodes,
            p.2.scc_size = some 1)
      ∧ (∀ p ∈ (enrich_graph_with_metrics M G).nodes,
          M.descC (core G) p.1 = none → p.2.downstream_count = some 0) := by
  by_cases h : G.nodes.isEmpty = true
  · have hE : enrich_graph_with_metrics M G = G := by
      unfold enrich_graph_with_metrics
      rw [if_pos h]
    have hnil : G.nodes = [] := List.isEmpty_iff.mp h
    have hvac : ∀ p, p ∈ (enrich_graph_with_metrics M G).nodes → False := by
      intro p hp
      rw [hE, hnil] at hp
      simp at hp
    refine ⟨fun _ => hE, ?_, ?_, ?_, ?_, ?_⟩
    · exact fun _ p hp => absurd hp (fun hc => hvac p hc)
    · exact fun _ p hp => absurd hp (fun hc => hvac p hc)
    · exact fun _ p hp => absurd hp (fun hc => hvac p hc)
    · exact fun _ p hp => absurd hp (fun hc => hvac p hc)
    · exact fun p hp => absurd hp (fun hc => hvac p hc)
  · have hnn : G.nodes ≠ [] := fun hc => h (List.isEmpty_iff.mpr hc)
    refine ⟨fun hc => absurd hc hnn, ?_, ?_, ?_, ?_, ?_⟩
    · intro hf p hp
      rw [enrich_nodes_eq h] at hp
      rcases List.mem_map.mp hp with ⟨p0, _, rfl⟩
      show some (lookupD ((M.prC (core G)).getD []) p0.1 0) = some 0
      rw [hf]
      rfl
    · intro hf p hp
      rw [enrich_nodes_eq h] at hp
      rcases List.mem_map.mp hp with ⟨p0, _, rfl⟩
      show some (lookupD ((M.degC (core G)).getD []) p0.1 0) = some 0
      rw [hf]
      rfl
    · intro hf p hp
      rw [enrich_nodes_eq h] at hp
      rcases List.mem_map.mp hp with ⟨p0, _, rfl⟩
      show some (lookupD ((M.btwC (core G)).getD []) p0.1 0) = some 0
      rw [hf]
      rfl
    · intro hf p hp
      rw [enrich_nodes_eq h] at hp
      rcases List.mem_map.mp hp with ⟨p0, _, rfl⟩
      show some (lookupD ((M.sccC (core G)).getD []) p0.1 1) = some 1
      rw [hf]
      rfl
    · intro p hp hf
      rw [enrich_nodes_eq h] at hp
      rcases List.mem_map.mp hp with ⟨p0, _, rfl⟩
      show some ((M.descC (core G) p0.1).getD 0) = some 0
      rw [hf]
      rfl

/-- Witness for C6 on the scenario graph with every metric computation
raising. -/
theorem enrich_graph_with_metrics_defaults_witness :
    ∀ p ∈ (enrich_graph_with_metrics noMetrics Gw).nodes,
      p.2.pagerank = some 0 ∧ p.2.centrality = some 0
        ∧ p.2.betweenness = some 0 ∧ p.2.scc_size = some 1
        ∧ p.2.downstream_count = some 0 := by
  have h := enrich_graph_with_metrics_defaults noMetrics Gw
  intro p hp
  exact ⟨h.2.1 rfl p hp, h.2.2.1 rfl p hp, h.2.2.2.1 rfl p hp,
    h.2.2.2.2.1 rfl p hp, h.2.2.2.2.2 p hp rfl⟩

/-! ## Lemmas: enrichment touches only derived numeric attributes -/

theorem enrich_core (M : MetricComps) (G : DiGraph) :
    core (enrich_graph_with_metrics M G) = core G := by
  by_cases h : G.nodes.isEmpty = true
  · unfold enrich_graph_with_metrics
    rw [if_pos h]
  · have h1 : (enrich_graph_with_metrics M G).nodeNames = G.nodeNames :=
      enrich_nodeNames M G
    have h2 : (enrich_graph_with_metrics M G).edges.map
          (fun e => (e.1, e.2.1, e.2.2.weight))
        = G.edges.map (fun e => (e.1, e.2.1, e.2.2.weight)) := by
      by_cases hmw : 0 < maxWeight G
      · rw [enrich_edges_pos h hmw, List.map_map]
        rfl
      · rw [enrich_edges_nonpos h hmw]
    unfold core
    rw [h1, h2]

/-- C7: one enrichment pass changes neither the node set, the edge set
nor the weights (the structural core), leaves the non-derived node
attributes untouched, and running the pass twice gives exactly the same
graph as running it once. -/
theorem enrich_graph_with_metrics_idempotent (M : MetricComps)
    (G : DiGraph) :
    core (enrich_graph_with_metrics M G) = core G
      ∧ (enrich_graph_with_metrics M G).nodes.map
            (fun p => (p.1, p.2.typ, p.2.file_count, p.2.contracts))
          = G.nodes.map (fun p => (p.1, p.2.typ, p.2.file_count, p.2.contracts))
      ∧ enrich_graph_with_metrics M (enrich_graph_with_metrics M G)
          = enrich_graph_with_metrics M G := by
  by_cases h : G.nodes.isEmpty = true
  · have hE : enrich_graph_with_metrics M G = G := by
      unfold enrich_graph_with_metrics
      rw [if_pos h]
    rw [hE]
    exact ⟨rfl, rfl, by rw [hE]⟩
  · have hnn : G.nodes ≠ [] := fun hc => h (List.isEmpty_iff.mpr hc)
    have hcore := enrich_core M G
    have h2 : ¬(enrich_graph_with_metrics M G).nodes.isEmpty = true := by
      rw [enrich_nodes_eq h]
      simp [List.isEmpty_iff, hnn]
    have hwl : (enrich_graph_with_metrics M G).edges.map
          (fun e => weightD e.2.2)
        = G.edges.map (fun e => weightD e.2.2) := by
      have hsnd := congrArg Prod.snd hcore
      unfold core at hsnd
      dsimp only at hsnd
      have hm := congrArg
        (List.map (fun t : String × String × Option ℚ => t.2.2.getD 1)) hsnd
      rw [List.map_map, List.map_map] at hm
      exact hm
    have hmw : maxWeight (enrich_graph_with_metrics M G) = maxWeight G := by
      rw [maxWeight_eq, maxWeight_eq, hwl]
    refine ⟨hcore, ?_, ?_⟩
    · rw [enrich_nodes_eq h, List.map_map]
      rfl
    · have hnodes : (enrich_graph_with_metrics M
          (enrich_graph_with_metrics M G)).nodes
          = (enrich_graph_with_metrics M G).nodes := by
        rw [enrich_nodes_eq h2, hcore, enrich_nodes_eq h, List.map_map]
        exact List.map_congr_left (fun p _ => rfl)
      have hedges : (enrich_graph_with_metrics M
          (enrich_graph_with_metrics M G)).edges
          = (enrich_graph_with_metrics M G).edges := by
        by_cases hmwp : 0 < maxWeight G
        · rw [enrich_edges_pos h2 (by rw [hmw]; exact hmwp), hmw,
            enrich_edges_pos h hmwp, List.map_map]
          exact List.map_congr_left (fun e _ => rfl)
        · rw [enrich_edges_nonpos h2 (by rw [hmw]; exact hmwp),
            enrich_edges_nonpos h hmwp]
      have e1 : enrich_graph_with_metrics M (enrich_graph_with_metrics M G)
          = ⟨(enrich_graph_with_metrics M
                (enrich_graph_with_metrics M G)).nodes,
             (enrich_graph_with_metrics M
                (enrich_graph_with_metrics M G)).edges⟩ := rfl
      rw [e1, hnodes, hedges]

/-! ## Lemmas: the directory walk visits exactly the files of the tree -/

theorem hasFile_nilDirs_iff {ts : FSForest} {fn : String} {c : Option JVal} :
    HasFile ts [] fn c ↔ FSTree.file fn c ∈ ts.toList := by
  constructor
  · intro h
    cases h with
    | here hm => exact hm
  · exact HasFile.here

theorem hasFile_consDirs_iff {ts : FSForest} {dn : String}
    {ds : List String} {fn : String} {c : Option JVal} :
    HasFile ts (dn :: ds) fn c ↔
      ∃ ch, FSTree.dir dn ch ∈ ts.toList ∧ HasFile ch ds fn c := by
  constructor
  · intro h
    cases h with
    | inSub hm hsub => exact ⟨_, hm, hsub⟩
  · rintro ⟨ch, hm, hsub⟩
    exact HasFile.inSub hm hsub

theorem dirFiles_mem : ∀ (rel : String) (ts : FSForest) (e : WalkEntry),
    (e ∈ dirFiles rel ts ↔
      ∃ fn c, FSTree.file fn c ∈ ts.toList ∧ e = (relJoin rel fn, fn, c))
  | rel, .nil, e => by simp [dirFiles, FSForest.toList]
  | rel, .cons (.file fn c) ts, e => by
    have ih := dirFiles_mem rel ts e
    simp only [dirFiles, FSForest.toList, List.mem_cons]
    rw [ih]
    constructor
    · rintro (rfl | ⟨fn', c', hm, rfl⟩)
      · exact ⟨fn, c, Or.inl rfl, rfl⟩
      · exact ⟨fn', c', Or.inr hm, rfl⟩
    · rintro ⟨fn', c', hm | hm, rfl⟩
      · injection hm with h1 h2
        subst h1; subst h2
        exact Or.inl rfl
      · exact Or.inr ⟨fn', c', hm, rfl⟩
  | rel, .cons (.dir dn ch) ts, e => by
    have ih := dirFiles_mem rel ts e
    simp only [dirFiles, FSForest.toList, List.mem_cons]
    rw [ih]
    constructor
    · rintro ⟨fn', c', hm, rfl⟩
      exact ⟨fn', c', Or.inr hm, rfl⟩
    · rintro ⟨fn', c', hm | hm, rfl⟩
      · exact absurd hm (by simp)
      · exact ⟨fn', c', hm, rfl⟩

mutual
theorem walkTree_mem : ∀ (rel : String) (t : FSTree) (e : WalkEntry),
    (e ∈ walkTree rel t ↔
      ∃ dn ch dirs fn c, t = FSTree.dir dn ch ∧ HasFile ch dirs fn c
        ∧ e = (relPathAt (relJoin rel dn) dirs fn, fn, c))
  | rel, .file fn0 c0, e => by
    simp [walkTree]
  | rel, .dir dn0 ch0, e => by
    have hsub := walkSub_mem (relJoin rel dn0) ch0 e
    have hfiles := dirFiles_mem (relJoin rel dn0) ch0 e
    simp only [walkTree, List.mem_append]
    rw [hsub, hfiles]
    constructor
    · rintro (⟨fn, c, hm, rfl⟩ | ⟨dn, ds, fn, c, hf, rfl⟩)
      · exact ⟨dn0, ch0, [], fn, c, rfl, hasFile_nilDirs_iff.mpr hm, rfl⟩
      · exact ⟨dn0, ch0, dn :: ds, fn, c, rfl, hf, rfl⟩
    · rintro ⟨dn, ch, dirs, fn, c, heq, hf, rfl⟩
      injection heq with h1 h2
      subst h1; subst h2
      match dirs, hf with
      | [], hf =>
        exact Or.inl ⟨fn, c, hasFile_nilDirs_iff.mp hf, rfl⟩
      | dn1 :: ds, hf =>
        exact Or.inr ⟨dn1, ds, fn, c, hf, rfl⟩

theorem walkSub_mem : ∀ (rel : String) (ts : FSForest) (e : WalkEntry),
    (e ∈ walkSub rel ts ↔
      ∃ dn ds fn c, HasFile ts (dn :: ds) fn c
        ∧ e = (relPathAt rel (dn :: ds) fn, fn, c))
  | rel, .nil, e => by
    simp only [walkSub, List.not_mem_nil, false_iff]
    rintro ⟨dn, ds, fn, c, hf, rfl⟩
    rcases hasFile_consDirs_iff.mp hf with ⟨ch, hm, _⟩
    simp [FSForest.toList] at hm
  | rel, .cons t ts, e => by
    have iht := walkTree_mem rel t e
    have ihs := walkSub_mem rel ts e
    simp only [walkSub, List.mem_append]
    rw [iht, ihs]
    constructor
    · rintro (⟨dn, ch, dirs, fn, c, rfl, hf, rfl⟩ | ⟨dn, ds, fn, c, hf, rfl⟩)
      · exact ⟨dn, dirs, fn, c, hasFile_consDirs_iff.mpr
          ⟨ch, by simp [FSForest.toList], hf⟩, rfl⟩
      · rcases hasFile_consDirs_iff.mp hf with ⟨ch, hm, hsub⟩
        exact ⟨dn, ds, fn, c, hasFile_consDirs_iff.mpr
          ⟨ch, by simp [FSForest.toList, hm], hsub⟩, rfl⟩
    · rintro ⟨dn, ds, fn, c, hf, rfl⟩
      rcases hasFile_consDirs_iff.mp hf with ⟨ch, hm, hsub⟩
      rcases List.mem_cons.mp (by simpa [FSForest.toList] using hm) with heq | hm'
      · exact Or.inl ⟨dn, ch, ds, fn, c, heq.symm, hsub, rfl⟩
      · exact Or.inr ⟨dn, ds, fn, c, hasFile_consDirs_iff.mpr ⟨ch, hm', hsub⟩, rfl⟩
end

theorem walkEntries_mem {rel : String} {ts : FSForest} {e : WalkEntry} :
    e ∈ walkEntries rel ts ↔
      ∃ dirs fn c, HasFile ts dirs fn c
        ∧ e = (relPathAt rel dirs fn, fn, c) := by
  unfold walkEntries
  rw [List.mem_append, dirFiles_mem rel ts e, walkSub_mem rel ts e]
  constructor
  · rintro (⟨fn, c, hm, rfl⟩ | ⟨dn, ds, fn, c, hf, rfl⟩)
    · exact ⟨[], fn, c, hasFile_nilDirs_iff.mpr hm, rfl⟩
    · exact ⟨dn :: ds, fn, c, hf, rfl⟩
  · rintro ⟨dirs, fn, c, hf, rfl⟩
    match dirs, hf with
    | [], hf => exact Or.inl ⟨fn, c, hasFile_nilDirs_iff.mp hf, rfl⟩
    | dn :: ds, hf => exact Or.inr ⟨dn, ds, fn, c, hf, rfl⟩

theorem foldl_discoverStep (base : String) :
    ∀ (l : List FSTree) (acc : List (String × List String)),
      l.foldl (discoverStep base) acc
        = acc ++ l.filterMap (serviceOfEntry base)
  | [], acc => by simp
  | t :: l, acc => by
    simp only [List.foldl_cons, List.filterMap_cons]
    unfold discoverStep
    cases h : serviceOfEntry base t with
    | none => simpa using foldl_discoverStep base l acc
    | some sv =>
      simpa [List.append_assoc] using foldl_discoverStep base l (acc ++ [sv])

theorem discover_eq (base : String) (entries : FSForest) :
    discover_microservices base entries
      = (sortLe (fun a b => strLe a.name b.name) entries.toList).filterMap
          (serviceOfEntry base) := by
  unfold discover_microservices
  exact (foldl_discoverStep base
    (sortLe (fun a b => strLe a.name b.name) entries.toList) []).trans
    (List.nil_append _)

theorem discover_mem {base : String} {entries : FSForest}
    {sv : String × List String} :
    sv ∈ discover_microservices base entries ↔
      ∃ t ∈ entries.toList, serviceOfEntry base t = some sv := by
  rw [discover_eq, List.mem_filterMap]
  constructor
  · rintro ⟨t, ht, hf⟩
    exact ⟨t, sortLe_mem.mp ht, hf⟩
  · rintro ⟨t, ht, hf⟩
    exact ⟨t, sortLe_mem.mpr ht, hf⟩

/-- C8 (counterexample to the claim as stated): `discover_microservices`
does not skip hidden directories — a `.py` file inside a `.git`
directory of a recognized service is collected. -/
theorem discover_hidden_dir_collected :
    discover_microservices "repo" forestW
      = [("svc-a", ["repo/svc-a/.git/app.py"])] := by decide

/-- C8 (amended): within each recognized service directory the scanner
collects exactly the files whose name carries a recognized source
extension — all of them, including files under hidden or build-artifact
directories, which are not skipped. -/
theorem discover_microservices_files (base : String) (entries : FSForest)
    {svc : String} {files : List String}
    (h : (svc, files) ∈ discover_microservices base entries) :
    ∃ ch, FSTree.dir svc ch ∈ entries.toList ∧ isServiceName svc = true
      ∧ ∀ p, (p ∈ files ↔ ∃ dirs fn c, HasFile ch dirs fn c
          ∧ hasSourceExt fn = true
          ∧ p = pathJoin (pathJoin base svc) (relPathAt "" dirs fn)) := by
  rcases discover_mem.mp h with ⟨t, ht, hs⟩
  match t, hs with
  | .dir n ch, hs =>
    unfold serviceOfEntry at hs
    dsimp only at hs
    by_cases hn : isServiceName n = true
    · rw [if_pos hn] at hs
      injection hs with hs
      injection hs with h1 h2
      subst h1
      refine ⟨ch, ht, hn, ?_⟩
      intro p
      rw [← h2, List.mem_filterMap]
      constructor
      · rintro ⟨e, he, hp⟩
        rcases walkEntries_mem.mp he with ⟨dirs, fn, c, hf, rfl⟩
        by_cases hx : hasSourceExt fn = true
        · refine ⟨dirs, fn, c, hf, hx, ?_⟩
          rw [if_pos hx] at hp
          injection hp with hp
          exact hp.symm
        · rw [if_neg hx] at hp
          exact absurd hp (by simp)
      · rintro ⟨dirs, fn, c, hf, hx, rfl⟩
        refine ⟨(relPathAt "" dirs fn, fn, c),
          walkEntries_mem.mpr ⟨dirs, fn, c, hf, rfl⟩, ?_⟩
        rw [if_pos hx]
    · rw [if_neg hn] at hs
      exact absurd hs (by simp)

/-- Witness for the amended C8 on the hidden-directory listing. -/
theorem discover_microservices_files_witness :
    ∃ ch, FSTree.dir "svc-a" ch ∈ forestW.toList
      ∧ isServiceName "svc-a" = true
      ∧ ∀ p, (p ∈ ["repo/svc-a/.git/app.py"] ↔
          ∃ dirs fn c, HasFile ch dirs fn c ∧ hasSourceExt fn = true
            ∧ p = pathJoin (pathJoin "repo" "svc-a") (relPathAt "" dirs fn)) :=
  discover_microservices_files "repo" forestW (by decide)

/-! ## Lemmas: contract discovery -/

theorem foldl_contractStep_nil (protoP : String → Option JVal) :
    ∀ (l : List WalkEntry) (acc : ContractsMap),
      (∀ e ∈ l, isOpenapiName (strToLower e.2.1) = false
        ∧ strEndsWith (strToLower e.2.1) ".proto" = false) →
      l.foldl (contractStep protoP) acc = acc
  | [], acc, _ => rfl
  | e :: l, acc, h => by
    have he := h e (List.mem_cons_self _ _)
    simp only [List.foldl_cons]
    have hstep : contractStep protoP acc e = acc := by
      unfold contractStep
      rw [if_neg (by simp [he.1]), if_neg (by simp [he.2])]
    rw [hstep]
    exact foldl_contractStep_nil protoP l acc
      (fun e' he' => h e' (List.mem_cons_of_mem _ he'))

/-- C9 (counterexample to the claim as stated): on a root holding a
single OpenAPI descriptor with one `/items` `get` path, the returned
contract carries an `info` key besides `paths`, so the mapping is not
exactly the claimed `{"openapi": [{path, contract: {paths: ...}}]}`. -/
theorem contracts_info_key_counterexample :
    _discover_service_contracts protoNone (oaForest "openapi.json" .null)
        = [("openapi", [("openapi.json", oaContract)])]
      ∧ _discover_service_contracts protoNone (oaForest "openapi.json" .null)
        ≠ [("openapi", [("openapi.json",
            JVal.obj [("paths",
              JVal.obj [("/items", JVal.arr [JVal.str "get"])])])])] := by
  constructor
  · rfl
  · intro h
    rw [show _discover_service_contracts protoNone
        (oaForest "openapi.json" .null)
      = [("openapi", [("openapi.json", oaContract)])] from rfl] at h
    simp [oaContract] at h

/-- C9 (amended): contract discovery on a service root holding a single
OpenAPI-style descriptor declaring `/items` with a `get` method returns
`{"openapi": [{path, contract: {paths: {"/items": ["get"]}, info: {}}}]}`
— the parsed summary also carries the declared `info` metadata, empty
here — and a root with no contract-like files yields the empty mapping,
not an error. -/
theorem discover_service_contracts_spec :
    (∀ (protoP : String → Option JVal) (fn : String) (v : JVal),
      isOpenapiName (strToLower fn) = true →
      _discover_service_contracts protoP (oaForest fn v)
        = [("openapi", [(fn, oaContract)])])
    ∧ (∀ (protoP : String → Option JVal) (ts : FSForest),
        (∀ e ∈ walkEntries "" ts, isOpenapiName (strToLower e.2.1) = false
          ∧ strEndsWith (strToLower e.2.1) ".proto" = false) →
        _discover_service_contracts protoP ts = []) := by
  constructor
  · intro protoP fn v hoa
    unfold _discover_service_contracts
    rw [show walkEntries "" (oaForest fn v)
      = [(relJoin "" fn, fn, some (.obj [("paths",
          .obj [("/items", .obj [("get", v)])])]))] from rfl]
    simp only [List.foldl_cons, List.foldl_nil]
    unfold contractStep
    rw [if_pos hoa]
    rfl
  · intro protoP ts h
    exact foldl_contractStep_nil protoP (walkEntries "" ts) [] h

/-- Witness for the amended C9: the concrete descriptor root and a
root holding only a readme. -/
theorem discover_service_contracts_spec_witness :
    _discover_service_contracts protoNone (oaForest "openapi.json" .null)
        = [("openapi", [("openapi.json", oaContract)])]
      ∧ _discover_service_contracts protoNone
          (.cons (FSTree.file "readme.md" none) .nil) = [] :=
  ⟨discover_service_contracts_spec.1 protoNone "openapi.json" .null
      (by decide),
   discover_service_contracts_spec.2 protoNone
      (.cons (FSTree.file "readme.md" none) .nil) (by decide)⟩

/-! ## Lemmas: sorted, deterministic service discovery -/

theorem serviceOfEntry_key {base : String} {t : FSTree}
    {sv : String × List String} (h : serviceOfEntry base t = some sv) :
    sv.1 = t.name := by
  match t with
  | .file n c => simp [serviceOfEntry] at h
  | .dir n ch =>
    unfold serviceOfEntry at h
    dsimp only at h
    by_cases hn : isServiceName n = true
    · rw [if_pos hn] at h
      injection h with h
      rw [← h]
      rfl
    · rw [if_neg hn] at h
      exact absurd h (by simp)

theorem filterMap_keys_pairwise (base : String) :
    ∀ (l : List FSTree),
      l.Pairwise (fun a b => strLe a.name b.name = true) →
      ((l.filterMap (serviceOfEntry base)).map (fun p => p.1)).Pairwise
        (fun a b => strLe a b = true)
  | [], _ => by simp
  | t :: l, h => by
    rcases List.pairwise_cons.mp h with ⟨ht, hl⟩
    simp only [List.filterMap_cons]
    cases hse : serviceOfEntry base t with
    | none => exact filterMap_keys_pairwise base l hl
    | some sv =>
      simp only [List.map_cons]
      refine List.pairwise_cons.mpr ⟨?_, filterMap_keys_pairwise base l hl⟩
      intro k hk
      rcases List.mem_map.mp hk with ⟨sv', hsv', rfl⟩
      rcases List.mem_filterMap.mp hsv' with ⟨t', ht', hse'⟩
      rw [serviceOfEntry_key hse, serviceOfEntry_key hse']
      exact ht t' ht'

theorem pairwise_ne_of_nodup_map {α : Type} {f : α → String} {l : List α}
    (h : (l.map f).Nodup) : l.Pairwise (fun a b => f a ≠ f b) := by
  induction l with
  | nil => simp
  | cons x xs ih =>
    rw [List.map_cons, List.nodup_cons] at h
    refine List.pairwise_cons.mpr ⟨?_, ih h.2⟩
    intro b hb heq
    exact h.1 (List.mem_map.mpr ⟨b, hb, heq.symm⟩)

theorem nameLe_trans : ∀ (a b c : FSTree),
    strLe a.name b.name = true → strLe b.name c.name = true →
    strLe a.name c.name = true :=
  fun _ _ _ h1 h2 => strLe_trans h1 h2

theorem nameLe_total : ∀ (a b : FSTree),
    (strLe a.name b.name || strLe b.name a.name) = true :=
  fun a b => by rcases strLe_total a.name b.name with h | h <;> simp [h]

/-- Two sorted listings that are permutations of each other with
duplicate-free names are equal. -/
theorem sortLe_name_eq_of_perm {l1 l2 : List FSTree}
    (hperm : l1.Perm l2) (hnd : (l2.map FSTree.name).Nodup) :
    sortLe (fun a b => strLe a.name b.name) l1
      = sortLe (fun a b => strLe a.name b.name) l2 := by
  have hps : (sortLe (fun a b => strLe a.name b.name) l1).Perm
      (sortLe (fun a b => strLe a.name b.name) l2) :=
    ((sortLe_perm _ l1).trans hperm).trans (sortLe_perm _ l2).symm
  have hs1 := sortLe_sorted nameLe_trans nameLe_total l1
  have hs2 := sortLe_sorted nameLe_trans nameLe_total l2
  have hne2 : (sortLe (fun a b => strLe a.name b.name) l2).Pairwise
      (fun a b => a.name ≠ b.name) := by
    refine pairwise_ne_of_nodup_map ?_
    rw [List.Perm.nodup_iff (List.Perm.map FSTree.name (sortLe_perm _ l2))]
    exact hnd
  have hne1 : (sortLe (fun a b => strLe a.name b.name) l1).Pairwise
      (fun a b => a.name ≠ b.name) := by
    refine pairwise_ne_of_nodup_map ?_
    rw [List.Perm.nodup_iff (List.Perm.map FSTree.name hps)]
    rw [List.Perm.nodup_iff (List.Perm.map FSTree.name (sortLe_perm _ l2))]
    exact hnd
  haveI : IsAntisymm FSTree
      (fun a b => strLe a.name b.name = true ∧ a.name ≠ b.name) :=
    ⟨fun a b hab hba => absurd (strLe_antisymm hab.1 hba.1) hab.2⟩
  exact List.eq_of_perm_of_sorted hps (hs1.and hne1) (hs2.and hne2)

/-- C10: the discovered services mapping is in sorted name order, so
when no changed file resolves the fallback origin is the
lexicographically smallest discovered service, and the result does not
depend on the order the operating system lists the base directory in. -/
theorem discover_sorted_deterministic (base : String) (entries : FSForest)
    (resolve : String → Option String) (cfs : List String) :
    ((discover_microservices base entries).map (fun p => p.1)).Pairwise
        (fun a b => strLe a b = true)
      ∧ (discover_microservices base entries ≠ [] →
          (∀ cf ∈ cfs, resolve cf = none) →
          ∃ sv0 rest, discover_microservices base entries = sv0 :: rest
            ∧ startList resolve cfs (discover_microservices base entries)
                = [sv0.1]
            ∧ ∀ k ∈ (discover_microservices base entries).map (fun p => p.1),
                strLe sv0.1 k = true)
      ∧ (∀ entries' : FSForest, entries'.toList.Perm entries.toList →
          (entries.toList.map FSTree.name).Nodup →
          discover_microservices base entries'
            = discover_microservices base entries) := by
  have hpair : ((discover_microservices base entries).map
      (fun p => p.1)).Pairwise (fun a b => strLe a b = true) := by
    rw [discover_eq]
    exact filterMap_keys_pairwise base _
      (sortLe_sorted nameLe_trans nameLe_total entries.toList)
  refine ⟨hpair, ?_, ?_⟩
  · intro hne hnores
    match hd : discover_microservices base entries, hne with
    | sv0 :: rest, _ =>
      refine ⟨sv0, rest, rfl, ?_, ?_⟩
      · unfold startList
        rw [resolveOrigins_none hnores]
        rfl
      · rw [hd, List.map_cons] at hpair
        rw [List.map_cons]
        intro k hk
        rcases List.mem_cons.mp hk with rfl | hk'
        · exact strLe_refl _
        · exact List.rel_of_pairwise_cons hpair hk'
  · intro entries' hperm hnd
    rw [discover_eq, discover_eq, sortLe_name_eq_of_perm hperm hnd]

/-- Witness for C10 on a two-service listing given in reverse order. -/
theorem discover_sorted_deterministic_witness :
    ∃ sv0 rest, discover_microservices "repo"
          (.cons (FSTree.dir "svc-b" .nil)
            (.cons (FSTree.dir "svc-a" .nil) .nil)) = sv0 :: rest
      ∧ startList resolveNone ["zzz"] (discover_microservices "repo"
          (.cons (FSTree.dir "svc-b" .nil)
            (.cons (FSTree.dir "svc-a" .nil) .nil))) = [sv0.1]
      ∧ ∀ k ∈ (discover_microservices "repo"
          (.cons (FSTree.dir "svc-b" .nil)
            (.cons (FSTree.dir "svc-a" .nil) .nil))).map (fun p => p.1),
          strLe sv0.1 k = true :=
  (discover_sorted_deterministic "repo"
      (.cons (FSTree.dir "svc-b" .nil) (.cons (FSTree.dir "svc-a" .nil) .nil))
      resolveNone ["zzz"]).2.1 (by decide) (fun cf _ => rfl)

end ImpactEngine
